import Mathlib

/-!
Verification development for the flake resolution and locking engine
(`src/libexpr/primops/flake.cc`).

The single source file is embedded shallowly: pure functions become Lean
functions, the side-effecting collaborators (downloader, git exporter,
filesystem, evaluator) become oracle fields of an explicit `EvalState`
record, and C++ exceptions become `Except Error`.  Recursions that the
C++ bounds only dynamically (registry lookup chains, dependency trees,
lock-file nesting) take an explicit fuel argument; exhausted fuel is a
distinguished error that the theorems rule out with depth hypotheses.

The reference type `FlakeRef` lives in headers that are not part of the
source tree, so it is modelled from the spec (see the doc comments on the
individual definitions).
-/

namespace Nix

/-- Modelled from the spec: a `Hash` printed with `to_string(Base16, false)`
is a hex string; the embedding carries revisions directly as their hex
strings (`Hash(s, htSHA1)` round-trips through that printing). -/
abbrev HashStr := String

/-- Modelled from the spec (§3 Reference): the closed variant part of a
reference — alias, version-control URL, hosted-repo shorthand
(owner + repo), or local path.  The shared optional `ref`/`rev` fields
live outside the variant on `FlakeRef`, as the spec's design note says. -/
inductive FlakeRefData where
  | isAlias (aliasId : String)
  | isGit (uri : String)
  | isGitHub (owner : String) (repo : String)
  | isPath (path : String)
deriving DecidableEq, Repr

/-- Modelled from the spec: a reference with its common optional override
fields.  Equality is structural. -/
structure FlakeRef where
  data : FlakeRefData
  ref : Option String := none
  rev : Option HashStr := none
deriving DecidableEq, Repr

/-- Modelled from the spec: `isImmutable()` is true iff a concrete revision
is pinned (§8: "for all references with a non-empty `rev`, `isImmutable()`
is true; for all without, false"). -/
def FlakeRef.isImmutable (r : FlakeRef) : Bool := r.rev.isSome

/-- Modelled from the spec: `isDirect()` is true iff the reference is not
an Alias. -/
def FlakeRef.isDirect (r : FlakeRef) : Bool :=
  match r.data with
  | .isAlias _ => false
  | _ => true

/-- Modelled from the spec: `baseRef()` strips the reference down to the
form used to rebuild a pinned reference after a fetch (the rebased text
`baseRef().to_string() + "/" + rev` must re-parse as a pinned reference,
so both `ref` and `rev` are dropped). -/
def FlakeRef.baseRef (r : FlakeRef) : FlakeRef :=
  { r with ref := none, rev := none }

/-- Modelled from the spec: the textual form of a reference.  The concrete
grammar (scheme prefixes, `/`-separated override suffixes for the
non-URL variants, query-style suffixes for version-control URLs) is a
faithful stand-in for the out-of-tree `FlakeRef::to_string`. -/
def FlakeRef.to_string (r : FlakeRef) : String :=
  let base :=
    match r.data with
    | .isAlias a => "flake:" ++ a
    | .isGit uri => uri
    | .isGitHub o rp => "github:" ++ o ++ "/" ++ rp
    | .isPath p => p
  match r.data with
  | .isGit _ =>
    (match r.ref with
     | none => base
     | some s => base ++ "?ref=" ++ s) ++
      (match r.rev with
       | none => ""
       | some v => "?rev=" ++ v)
  | _ =>
    (match r.ref with
     | none => base
     | some s => base ++ "/" ++ s) ++
      (match r.rev with
       | none => ""
       | some v => "/" ++ v)

/-- Split a character list on a separator (used by the reference parser). -/
def splitOnChar (sep : Char) : List Char → List (List Char)
  | [] => [[]]
  | c :: rest =>
    let r := splitOnChar sep rest
    if c = sep then
      [] :: r
    else
      match r with
      | [] => [[c]]
      | h :: t => (c :: h) :: t

def isHexChar (c : Char) : Bool :=
  ('0' ≤ c && c ≤ '9') || ('a' ≤ c && c ≤ 'f')

/-- A 40-character lowercase-hex string: the textual shape of a pinned
revision. -/
def isRevChars (l : List Char) : Bool :=
  l.length == 40 && l.all isHexChar

def dropPrefixChars : List Char → List Char → Option (List Char)
  | [], l => some l
  | _, [] => none
  | p :: ps, c :: cs => if c = p then dropPrefixChars ps cs else none

def containsSub : List Char → List Char → Bool
  | _, [] => false
  | needle, c :: rest =>
    (dropPrefixChars needle (c :: rest)).isSome || containsSub needle rest

/-- `containsStr hay needle` : does `hay` contain `needle` as a substring. -/
def containsStr (hay needle : String) : Bool :=
  (dropPrefixChars needle.data hay.data).isSome || containsSub needle.data hay.data

/-- Modelled from the spec: construction of a `FlakeRef` from text (the
out-of-tree `FlakeRef(std::string)` constructor; `none` models the
constructor throwing on a string that is no flake reference).  Inverse of
`FlakeRef.to_string` on canonically printed references. -/
def parseFlakeRef (s : String) : Option FlakeRef :=
  match dropPrefixChars "github:".data s.data with
  | some rest =>
    (match splitOnChar '/' rest with
     | [o, rp] => some ⟨.isGitHub (String.mk o) (String.mk rp), none, none⟩
     | [o, rp, x] =>
       if isRevChars x then
         some ⟨.isGitHub (String.mk o) (String.mk rp), none, some (String.mk x)⟩
       else
         some ⟨.isGitHub (String.mk o) (String.mk rp), some (String.mk x), none⟩
     | [o, rp, x, y] =>
       if isRevChars y then
         some ⟨.isGitHub (String.mk o) (String.mk rp), some (String.mk x), some (String.mk y)⟩
       else
         none
     | _ => none)
  | none =>
    match dropPrefixChars "flake:".data s.data with
    | some rest =>
      (match splitOnChar '/' rest with
       | [n] => some ⟨.isAlias (String.mk n), none, none⟩
       | [n, x] =>
         if isRevChars x then
           some ⟨.isAlias (String.mk n), none, some (String.mk x)⟩
         else
           some ⟨.isAlias (String.mk n), some (String.mk x), none⟩
       | [n, x, y] =>
         if isRevChars y then
           some ⟨.isAlias (String.mk n), some (String.mk x), some (String.mk y)⟩
         else
           none
       | _ => none)
    | none =>
      match s.data with
      | '/' :: _ => some ⟨.isPath s, none, none⟩
      | _ =>
        if containsStr s "://" then
          some ⟨.isGit s, none, none⟩
        else
          none

/-- A reference whose printed form parses back to itself (the canonical
references; hypotheses of the codec theorems are stated with it and
discharged by evaluation at the concrete witnesses). -/
def parseRT (r : FlakeRef) : Bool :=
  decide (parseFlakeRef r.to_string = some r)

/-! ## JSON documents

The lock file and registry schema (`nlohmann::json` in the source).  Only
the value shapes the schema uses are modelled: null, strings, integers and
objects.  Objects are association lists; the C++ library keeps object keys
in a sorted map while the model keeps insertion order — the read/write
code accesses fields by key and iterates whole objects, for which the two
agree up to the iteration order of entries. -/

mutual
inductive Json where
  | null
  | str (s : String)
  | num (n : Int)
  | obj (entries : JsonObj)
deriving DecidableEq
inductive JsonObj where
  | nil
  | cons (k : String) (v : Json) (rest : JsonObj)
deriving DecidableEq
end

def JsonObj.find : JsonObj → String → Option Json
  | .nil, _ => none
  | .cons k v rest, key => if k = key then some v else rest.find key

/-- Reading `json[k]`: the value at `k`, or null when the key is absent
(the C++ `operator[]` materialises a null for an absent key). -/
def jsonGet : Json → String → Json
  | .obj o, k => (o.find k).getD .null
  | _, _ => .null

/-- Iterating a JSON value as an object: iterating null visits nothing;
anything else is expected to be an object. -/
def toObjEntries : Json → JsonObj
  | .obj o => o
  | _ => .nil

/-- The evaluator-facing errors of the core (C++ `throw Error(...)` and
the one `abort()`), plus the fuel sentinel of the embedding. -/
inductive Error where
  | fetchMutable (uri : String)         -- "requested to fetch FlakeRef '%s' purely, which is mutable"
  | cycleDetected (msg : String)        -- "found cycle in flake registries: ..."
  | indirectURI (uri : String)          -- "indirect flake URI '%s' is the result of a lookup"
  | unsupportedVersion (version : Int)  -- "... has unsupported version %d"
  | noETag (url : String)               -- "did not receive an ETag header from '%s'"
  | badETag (etag : String) (url : String) -- "ETag header '%s' from '%s' is not a Git revision"
  | notGitRepo (path : String)          -- "flake '%s' does not reference a Git repository"
  | missingName                         -- "flake lacks attribute 'name'"
  | missingProvides                     -- "flake lacks attribute 'provides'"
  | badFlakeRefStr (s : String)         -- FlakeRef construction from a malformed string
  | notStorePath (path : String)        -- store->assertStorePath failure
  | evalFailure (path : String)         -- evaluator failure on flake.nix
  | jsonTypeErr                         -- nlohmann type error on field access
  | aborted                             -- the abort() on an alias reaching fetchFlake
  | fuelExhausted                       -- embedding artifact: recursion bound hit
deriving DecidableEq, Repr

/-- `json.value(k, d)` for an integer field: the default when the key is
absent, the value when it is an integer, a type error otherwise. -/
def jsonValueInt (j : Json) (k : String) (d : Int) : Except Error Int :=
  match j with
  | .obj o =>
    match o.find k with
    | none => .ok d
    | some (.num n) => .ok n
    | some _ => .error .jsonTypeErr
  | _ => .error .jsonTypeErr

/-- `json.value(k, d)` for a string field. -/
def jsonValueStr (j : Json) (k : String) (d : String) : Except Error String :=
  match j with
  | .obj o =>
    match o.find k with
    | none => .ok d
    | some (.str s) => .ok s
    | some _ => .error .jsonTypeErr
  | _ => .error .jsonTypeErr

def parseRefE (s : String) : Except Error FlakeRef :=
  match parseFlakeRef s with
  | some r => .ok r
  | none => .error (.badFlakeRefStr s)

/-! ## Association-list maps

The C++ `std::map` operations the source uses, on association lists:
`insert_or_assign` replaces the value at an existing key in place and
appends otherwise; `emplace` inserts only when the key is absent. -/

def listLookup {α : Type} : List (String × α) → String → Option α
  | [], _ => none
  | (k', v) :: rest, k => if k' = k then some v else listLookup rest k

def listInsertOrAssign {α : Type} : List (String × α) → String → α → List (String × α)
  | [], k, v => [(k, v)]
  | (k', v') :: rest, k, v =>
    if k' = k then (k', v) :: rest else (k', v') :: listInsertOrAssign rest k v

def listHasKey {α : Type} : List (String × α) → String → Bool
  | [], _ => false
  | (k', _) :: rest, k => k' == k || listHasKey rest k

def keysNodup {α : Type} : List (String × α) → Bool
  | [] => true
  | (k, _) :: rest => !listHasKey rest k && keysNodup rest

def listInsertAll {α : Type} : List (String × α) → List (String × α) → List (String × α)
  | acc, [] => acc
  | acc, (k, v) :: rest => listInsertAll (listInsertOrAssign acc k v) rest

/-! ## Registries and registry lookup -/

/-- `FlakeRegistry`: a mapping from reference to reference (the source
keys its `std::map` by whole `FlakeRef`s). -/
structure FlakeRegistry where
  entries : List (FlakeRef × FlakeRef)
deriving DecidableEq

def regFind (reg : FlakeRegistry) (r : FlakeRef) : Option FlakeRef :=
  (reg.entries.find? (fun e => e.1 = r)).map (·.2)

def regEmplace (l : List (FlakeRef × FlakeRef)) (k v : FlakeRef) :
    List (FlakeRef × FlakeRef) :=
  if l.any (fun e => e.1 = k) then l else l ++ [(k, v)]

/-- `readRegistry`: read a registry file (`none` models a missing file,
which yields an empty registry; flake.cc lines 17-35). -/
def readRegistryEntries : JsonObj → List (FlakeRef × FlakeRef) →
    Except Error (List (FlakeRef × FlakeRef))
  | .nil, acc => .ok acc
  | .cons k v rest, acc => do
    let keyRef ← parseRefE k
    let uriStr ← jsonValueStr v "uri" ""
    let uriRef ← parseRefE uriStr
    readRegistryEntries rest (regEmplace acc keyRef uriRef)

def readRegistry (file : Option Json) : Except Error FlakeRegistry :=
  match file with
  | none => .ok ⟨[]⟩
  | some j => do
    let version ← jsonValueInt j "version" 0
    if version ≠ 1 then
      .error (.unsupportedVersion version)
    else do
      let entries ← readRegistryEntries (toObjEntries (jsonGet j "flakes")) []
      .ok ⟨entries⟩

/-- One step of the registry scan: the first registry containing the
reference wins (flake.cc lines 199-201). -/
def findInRegistries : List FlakeRegistry → FlakeRef → Option FlakeRef
  | [], _ => none
  | reg :: rest, r =>
    match regFind reg r with
    | some m => some m
    | none => findInRegistries rest r

/-- The override copy of flake.cc lines 203-206: when the looked-up input
is an alias, its explicit `ref`/`rev` replace those of the mapping. -/
def applyOverrides (flakeRef newRef : FlakeRef) : FlakeRef :=
  match flakeRef.data with
  | .isAlias _ =>
    { newRef with
      ref := if flakeRef.ref.isSome then flakeRef.ref else newRef.ref,
      rev := if flakeRef.rev.isSome then flakeRef.rev else newRef.rev }
  | _ => newRef

/-- The cycle scan of flake.cc lines 207-213: walk the accumulated path,
appending each visited reference's text to the message, and stop with the
message built so far when the newly resolved reference is hit. -/
def cycleCheck : List FlakeRef → FlakeRef → String → Option String
  | [], _, _ => none
  | oldRef :: rest, newRef, msg =>
    let msg := msg ++ oldRef.to_string
    if oldRef = newRef then some msg else cycleCheck rest newRef (msg ++ " - ")

/-- `lookupFlake` (flake.cc lines 196-221).  The C++ recursion is bounded
only by the cycle check; the embedding adds fuel, which the theorems
discharge with explicit bounds. -/
def lookupFlake : Nat → List FlakeRegistry → FlakeRef → List FlakeRef →
    Except Error FlakeRef
  | 0, _, _, _ => .error .fuelExhausted
  | fuel + 1, registries, flakeRef, pastSearches =>
    match findInRegistries registries flakeRef with
    | some mapped =>
      let newRef := applyOverrides flakeRef mapped
      match cycleCheck pastSearches newRef "found cycle in flake registries: " with
      | some msg => .error (.cycleDetected msg)
      | none => lookupFlake fuel registries newRef (pastSearches ++ [newRef])
    | none =>
      if !flakeRef.isDirect then
        .error (.indirectURI flakeRef.to_string)
      else
        .ok flakeRef

/-! ## Lock files

`LockFile::FlakeEntry` is recursive (`requires` entries nest), so the
entry type and its key-ordered map are a mutual inductive pair. -/

mutual
inductive FlakeEntry where
  | mk (ref : FlakeRef) (flakeEntries : FlakeEntryMap)
       (nonFlakeEntries : List (String × FlakeRef))
deriving DecidableEq
inductive FlakeEntryMap where
  | nil
  | cons (k : String) (v : FlakeEntry) (rest : FlakeEntryMap)
deriving DecidableEq
end

def FlakeEntry.ref : FlakeEntry → FlakeRef
  | .mk r _ _ => r

def FlakeEntry.flakeEntries : FlakeEntry → FlakeEntryMap
  | .mk _ fes _ => fes

def FlakeEntry.nonFlakeEntries : FlakeEntry → List (String × FlakeRef)
  | .mk _ _ nfes => nfes

def FlakeEntryMap.insertOrAssign : FlakeEntryMap → String → FlakeEntry → FlakeEntryMap
  | .nil, k, v => .cons k v .nil
  | .cons k' v' rest, k, v =>
    if k' = k then .cons k' v rest else .cons k' v' (rest.insertOrAssign k v)

def FlakeEntryMap.append : FlakeEntryMap → FlakeEntryMap → FlakeEntryMap
  | .nil, m => m
  | .cons k v rest, m => .cons k v (rest.append m)

def FlakeEntryMap.hasKey : FlakeEntryMap → String → Bool
  | .nil, _ => false
  | .cons k' _ rest, k => k' == k || rest.hasKey k

def FlakeEntryMap.lookup : FlakeEntryMap → String → Option FlakeEntry
  | .nil, _ => none
  | .cons k' v rest, k => if k' = k then some v else rest.lookup k

/-- Top-level key distinctness of a map. -/
def mapKeysND : FlakeEntryMap → Bool
  | .nil => true
  | .cons k _ rest => !rest.hasKey k && mapKeysND rest

def insertAllMap : FlakeEntryMap → FlakeEntryMap → FlakeEntryMap
  | acc, .nil => acc
  | acc, .cons k v rest => insertAllMap (acc.insertOrAssign k v) rest

deriving instance DecidableEq for Except

structure LockFile where
  flakeEntries : FlakeEntryMap
  nonFlakeEntries : List (String × FlakeRef)
deriving DecidableEq

-- The references stored in a flake entry, in the order the reading code
-- examines them: the entry's own `uri`, then its non-flake entries, then
-- the nested `requires` entries.
mutual
def entryRefs : FlakeEntry → List FlakeRef
  | .mk r fes nfes => r :: (nfes.map Prod.snd ++ entryMapRefs fes)
def entryMapRefs : FlakeEntryMap → List FlakeRef
  | .nil => []
  | .cons _ v rest => entryRefs v ++ entryMapRefs rest
end

/-- The references stored in a lock file, in reading order: top-level
non-flake entries first, then the `requires` tree. -/
def lockFileRefs (lf : LockFile) : List FlakeRef :=
  lf.nonFlakeEntries.map Prod.snd ++ entryMapRefs lf.flakeEntries

-- Key distinctness at every level of an entry.
mutual
def entryND : FlakeEntry → Bool
  | .mk _ fes nfes => keysNodup nfes && mapKeysND fes && mapEntriesND fes
def mapEntriesND : FlakeEntryMap → Bool
  | .nil => true
  | .cons _ v rest => entryND v && mapEntriesND rest
end

def lockFileND (lf : LockFile) : Bool :=
  keysNodup lf.nonFlakeEntries && mapKeysND lf.flakeEntries && mapEntriesND lf.flakeEntries

-- Nesting depth of an entry (the fuel the reader needs).
mutual
def entryDepth : FlakeEntry → Nat
  | .mk _ fes _ => entryMapDepth fes + 1
def entryMapDepth : FlakeEntryMap → Nat
  | .nil => 0
  | .cons _ v rest => max (entryDepth v) (entryMapDepth rest)
end

/-! ### Reading (flake.cc lines 48-101)

`readFlakeEntry` parses an entry's own `uri` and rejects a mutable
reference, reads `nonFlakeRequires` with the same check per entry, and
recurses into `requires`.  `readLockFile` does the version gate, the
top-level `nonFlakeRequires`, and the top-level `requires`. -/

def readNonFlakeObj : JsonObj → List (String × FlakeRef) →
    Except Error (List (String × FlakeRef))
  | .nil, acc => .ok acc
  | .cons k v rest, acc => do
    let uriStr ← jsonValueStr v "uri" ""
    let flakeRef ← parseRefE uriStr
    if !flakeRef.isImmutable then
      .error (.fetchMutable flakeRef.to_string)
    else
      readNonFlakeObj rest (listInsertOrAssign acc k flakeRef)

def readRequiresObjF (readE : Json → Except Error FlakeEntry) :
    JsonObj → FlakeEntryMap → Except Error FlakeEntryMap
  | .nil, acc => .ok acc
  | .cons k v rest, acc => do
    let entry ← readE v
    readRequiresObjF readE rest (acc.insertOrAssign k entry)

def readFlakeEntry : Nat → Json → Except Error FlakeEntry
  | 0, _ => .error .fuelExhausted
  | fuel + 1, j => do
    let uriStr ←
      match jsonGet j "uri" with
      | .str s => Except.ok s
      | _ => Except.error Error.jsonTypeErr
    let flakeRef ← parseRefE uriStr
    if !flakeRef.isImmutable then
      .error (.fetchMutable flakeRef.to_string)
    else do
      let nfes ← readNonFlakeObj (toObjEntries (jsonGet j "nonFlakeRequires")) []
      let fes ← readRequiresObjF (readFlakeEntry fuel)
        (toObjEntries (jsonGet j "requires")) .nil
      .ok (.mk flakeRef fes nfes)

/-- The body of `readLockFile` once the file exists: version gate, then
both entry families. -/
def readLockFileDoc (fuel : Nat) (j : Json) : Except Error LockFile := do
  let version ← jsonValueInt j "version" 0
  if version ≠ 1 then
    .error (.unsupportedVersion version)
  else do
    let nfes ← readNonFlakeObj (toObjEntries (jsonGet j "nonFlakeRequires")) []
    let fes ← readRequiresObjF (readFlakeEntry fuel)
      (toObjEntries (jsonGet j "requires")) .nil
    .ok ⟨fes, nfes⟩

/-- `readLockFile` (flake.cc lines 73-101); `none` models a missing file,
which yields an empty lock file. -/
def readLockFile (fuel : Nat) (file : Option Json) : Except Error LockFile :=
  match file with
  | none => .ok ⟨.nil, []⟩
  | some j => readLockFileDoc fuel j

/-! ### Writing (flake.cc lines 103-125) -/

def nonFlakeToObj : List (String × FlakeRef) → JsonObj
  | [] => .nil
  | (k, r) :: rest => .cons k (.obj (.cons "uri" (.str r.to_string) .nil)) (nonFlakeToObj rest)

/-- The `requires` key appears in an entry's JSON only when at least one
assignment `json["requires"][k] = ...` ran. -/
def reqKeyObj (o : JsonObj) : JsonObj :=
  match o with
  | .nil => .nil
  | q => .cons "requires" (.obj q) .nil

/-- Likewise `nonFlakeRequires` inside `flakeEntryToJson` is only created
by the loop's assignments. -/
def nfKeyObj (nfes : List (String × FlakeRef)) : JsonObj :=
  match nfes with
  | [] => .nil
  | l => .cons "nonFlakeRequires" (.obj (nonFlakeToObj l)) .nil

def JsonObj.appendObj : JsonObj → JsonObj → JsonObj
  | .nil, o => o
  | .cons k v rest, o => .cons k v (rest.appendObj o)

mutual
def flakeEntryToJson : FlakeEntry → Json
  | .mk r fes nfes =>
    .obj (.cons "uri" (.str r.to_string)
      ((nfKeyObj nfes).appendObj (reqKeyObj (flakeEntryMapToObj fes))))
def flakeEntryMapToObj : FlakeEntryMap → JsonObj
  | .nil => .nil
  | .cons k v rest => .cons k (flakeEntryToJson v) (flakeEntryMapToObj rest)
end

/-- `writeLockFile` (flake.cc lines 114-125): the JSON document written.
The bare statement `json["nonFlakeRequires"];` materialises a null there
even when no non-flake entry exists; `requires` appears only when some
flake entry does. -/
def writeLockFile (lf : LockFile) : Json :=
  .obj (.cons "version" (.num 1)
    (.cons "nonFlakeRequires"
      (match lf.nonFlakeEntries with
       | [] => .null
       | l => .obj (nonFlakeToObj l))
      (reqKeyObj (flakeEntryMapToObj lf.flakeEntries))))


/-! ## Fetching and loading

The collaborators of §6 (downloader, git exporter, store, evaluator,
filesystem) are oracle functions carried in `EvalState`; the core's
dispatch and validation logic is translated from the source. -/

/-- The cached-downloader result (`download.hh` collaborator): a store
path and the optional ETag header. -/
structure DownloadResult where
  path : String
  etag : Option String

/-- The git-exporter result (`fetchGit.hh` collaborator). -/
structure GitInfo where
  storePath : String
  rev : HashStr
  revCount : Nat

/-- The attribute set obtained by evaluating a `flake.nix` file (the
evaluator collaborator): the fixed fields `getFlake` reads from it. -/
structure FlakeNix where
  name : Option String
  description : Option String
  requires : List String
  nonFlakeRequires : List (String × String)
  provides : Option Nat

/-- The slice of `EvalState` the core consumes: the pure-evaluation
setting, the registry files, and the external collaborators as oracles.
`vProvides` values are opaque evaluator values, modelled as tokens. -/
structure EvalState where
  pureEval : Bool
  userRegistryFile : Option Json
  localRegistryFile : Option Json
  downloadCached : String → DownloadResult
  exportGit : String → Option String → String → GitInfo
  pathExists : String → Bool
  isStorePath : String → Bool
  evalFlakeNix : String → Option FlakeNix
  readLockFileAt : String → Option Json

/-- `EvalState::getFlakeRegistries` (flake.cc lines 154-168): in pure mode
the global/user/local slots are empty placeholders; the flag registry is
the currently-empty fourth slot (`getFlagRegistry` returns an empty
registry, as does `getGlobalRegistry`). -/
def getFlakeRegistries (st : EvalState) : Except Error (List FlakeRegistry) :=
  if st.pureEval then
    .ok [⟨[]⟩, ⟨[]⟩, ⟨[]⟩, ⟨[]⟩]
  else do
    let userReg ← readRegistry st.userRegistryFile
    let localReg ← readRegistry st.localRegistryFile
    .ok [⟨[]⟩, userReg, localReg, ⟨[]⟩]

structure FlakeSourceInfo where
  storePath : String
  rev : Option HashStr
  revCount : Option Nat
deriving DecidableEq, Repr

def githubTarballUrl (owner repo : String) (fRef : FlakeRef) : String :=
  "https://api.github.com/repos/" ++ owner ++ "/" ++ repo ++ "/tarball/" ++
    (match fRef.rev with
     | some rv => rv
     | none =>
       match fRef.ref with
       | some r => r
       | none => "master")

/-- The variant dispatch of `fetchFlake` (flake.cc lines 235-287), on the
already-resolved reference.  The GitHub branch carries the purity gate
and the strict ETag validation; the git and path branches delegate to the
exporter; an alias reaching this point is the `abort()`. -/
def fetchResolved (st : EvalState) (fRef : FlakeRef)
    (impureIsAllowed : Bool) : Except Error FlakeSourceInfo :=
  match fRef.data with
  | .isGitHub owner repo =>
    if st.pureEval && !impureIsAllowed && !fRef.isImmutable then
      .error (.fetchMutable fRef.to_string)
    else
      let url := githubTarballUrl owner repo fRef
      let result := st.downloadCached url
      match result.etag with
      | none => .error (.noETag url)
      | some etag =>
        if etag.data.length ≠ 42 || etag.data.get? 0 ≠ some '"' ||
            etag.data.get? 41 ≠ some '"' then
          .error (.badETag etag url)
        else
          .ok ⟨result.path, some (String.mk ((etag.data.drop 1).take 40)), none⟩
  | .isGit uri =>
    let gitInfo := st.exportGit uri fRef.ref
      (match fRef.rev with
       | some rv => rv
       | none => "")
    .ok ⟨gitInfo.storePath, some gitInfo.rev, some gitInfo.revCount⟩
  | .isPath path =>
    if !st.pathExists (path ++ "/.git") then
      .error (.notGitRepo path)
    else
      let gitInfo := st.exportGit path none ""
      .ok ⟨gitInfo.storePath, some gitInfo.rev, some gitInfo.revCount⟩
  | .isAlias _ => .error .aborted

/-- `fetchFlake` (flake.cc lines 230-288): resolve through the registries,
then dispatch on the resolved variant. -/
def fetchFlake (st : EvalState) (fuel : Nat) (flakeRef : FlakeRef)
    (impureIsAllowed : Bool) : Except Error FlakeSourceInfo := do
  let registries ← getFlakeRegistries st
  let fRef ← lookupFlake fuel registries flakeRef []
  fetchResolved st fRef impureIsAllowed

structure Flake where
  id : String
  description : String
  ref : FlakeRef
  path : String
  revCount : Option Nat
  requires : List FlakeRef
  nonFlakeRequires : List (String × FlakeRef)
  vProvides : Nat
  lockFile : LockFile
deriving DecidableEq

structure NonFlake where
  ref : FlakeRef
  path : String
  aliasId : String
deriving DecidableEq

/-- The hosted-shorthand rebase of flake.cc lines 304-308 (and 369-373):
only when the ORIGINAL reference is the GitHub variant and a revision was
obtained is `ref` rebuilt as `baseRef().to_string() + "/" + rev` (the C++
`FlakeRef(std::string)` constructor; its throwing on a malformed string is
the error case). -/
def rebasedRef (flakeRef : FlakeRef) (sourceInfo : FlakeSourceInfo) :
    Except Error FlakeRef :=
  match flakeRef.data with
  | .isGitHub _ _ =>
    (match sourceInfo.rev with
     | some rv => parseRefE (flakeRef.baseRef.to_string ++ "/" ++ rv)
     | none => .ok flakeRef)
  | _ => .ok flakeRef

def parseRefList : List String → Except Error (List FlakeRef)
  | [] => .ok []
  | s :: rest => do
    let r ← parseRefE s
    let rs ← parseRefList rest
    .ok (r :: rs)

/-- The `nonFlakeRequires` attribute loop of flake.cc lines 333-340:
each attribute's string is parsed and `insert_or_assign`ed. -/
def parseNonFlakeReqs : List (String × String) → List (String × FlakeRef) →
    Except Error (List (String × FlakeRef))
  | [], acc => .ok acc
  | (k, s) :: rest, acc => do
    let r ← parseRefE s
    parseNonFlakeReqs rest (listInsertOrAssign acc k r)

/-- The post-fetch part of `getFlake` (flake.cc lines 294-352): store-path
check, hosted-shorthand rebase, metadata loading from `flake.nix`
(`name` and `provides` required), and the embedded lock file, in the
source's order; each `.error` is the corresponding C++ `throw`. -/
def loadFlake (st : EvalState) (fuel : Nat) (flakeRef : FlakeRef)
    (sourceInfo : FlakeSourceInfo) : Except Error Flake :=
  if !st.isStorePath sourceInfo.storePath then
    .error (.notStorePath sourceInfo.storePath)
  else
    match rebasedRef flakeRef sourceInfo with
    | .error e => .error e
    | .ok refF =>
      match st.evalFlakeNix (sourceInfo.storePath ++ "/flake.nix") with
      | none => .error (.evalFailure (sourceInfo.storePath ++ "/flake.nix"))
      | some info =>
        match info.name with
        | none => .error .missingName
        | some id =>
          match parseRefList info.requires with
          | .error e => .error e
          | .ok requiresRefs =>
            match parseNonFlakeReqs info.nonFlakeRequires [] with
            | .error e => .error e
            | .ok nonFlakeReqs =>
              match info.provides with
              | none => .error .missingProvides
              | some provides =>
                match readLockFile fuel
                    (st.readLockFileAt (sourceInfo.storePath ++ "/flake.lock")) with
                | .error e => .error e
                | .ok lock =>
                  .ok ⟨id, info.description.getD "", refF, sourceInfo.storePath,
                       sourceInfo.revCount, requiresRefs, nonFlakeReqs, provides, lock⟩

/-- `getFlake` (flake.cc lines 291-353).  NOTE the translation of line
293: the source calls `fetchFlake(state, flakeRef)`, leaving the
`impureIsAllowed` parameter unused, so `false` (the C++ default) is what
reaches the fetch. -/
def getFlake (st : EvalState) (fuel : Nat) (flakeRef : FlakeRef)
    (impureIsAllowed : Bool) : Except Error Flake := do
  let sourceInfo ← fetchFlake st fuel flakeRef false
  loadFlake st fuel flakeRef sourceInfo

/-- `getNonFlake` (flake.cc lines 356-380): same fetch, store check and
rebase, but no metadata evaluation. -/
def getNonFlake (st : EvalState) (fuel : Nat) (flakeRef : FlakeRef)
    (aliasId : String) : Except Error NonFlake := do
  let sourceInfo ← fetchFlake st fuel flakeRef false
  let flakePath := sourceInfo.storePath
  if !st.isStorePath flakePath then
    .error (.notStorePath flakePath)
  else do
    let refF ← rebasedRef flakeRef sourceInfo
    .ok ⟨refF, flakePath, aliasId⟩

/-! ## Dependency resolution (flake.cc lines 386-398) -/

mutual
inductive Dependencies where
  | mk (flake : Flake) (flakeDeps : DepsList) (nonFlakeDeps : List NonFlake)
deriving DecidableEq
inductive DepsList where
  | nil
  | cons (d : Dependencies) (rest : DepsList)
deriving DecidableEq
end

def Dependencies.flake : Dependencies → Flake
  | .mk f _ _ => f

def Dependencies.flakeDeps : Dependencies → DepsList
  | .mk _ fd _ => fd

def Dependencies.nonFlakeDeps : Dependencies → List NonFlake
  | .mk _ _ nfd => nfd

def getNonFlakes (st : EvalState) (fuel : Nat) :
    List (String × FlakeRef) → Except Error (List NonFlake)
  | [] => .ok []
  | (aliasId, r) :: rest => do
    let nf ← getNonFlake st fuel r aliasId
    let nfs ← getNonFlakes st fuel rest
    .ok (nf :: nfs)

def resolveListF (resolveOne : FlakeRef → Except Error Dependencies) :
    List FlakeRef → Except Error DepsList
  | [] => .ok .nil
  | r :: rest => do
    let d ← resolveOne r
    let ds ← resolveListF resolveOne rest
    .ok (.cons d ds)

/-- `resolveFlake` (flake.cc lines 386-398): load the top flake with
`isTopFlake && impureTopRef`, attach the non-flake dependencies, then
recurse into each `requires` entry with impurity forced off and the
top-level flag off (the recursive call at line 395 passes `false`; the
source deliberately has no cycle/diamond detection here, which the fuel
of the embedding makes explicit). -/
def resolveFlake (st : EvalState) : Nat → FlakeRef → Bool → Bool →
    Except Error Dependencies
  | 0, _, _, _ => .error .fuelExhausted
  | fuel + 1, topRef, impureTopRef, isTopFlake => do
    let flake ← getFlake st fuel topRef (isTopFlake && impureTopRef)
    let nfDeps ← getNonFlakes st fuel flake.nonFlakeRequires
    let fDeps ← resolveListF (fun r => resolveFlake st fuel r false false)
      flake.requires
    .ok (.mk flake fDeps nfDeps)

/-! ## Dependencies → lock file (flake.cc lines 400-421) -/

def nonFlakeFold : List NonFlake → List (String × FlakeRef) →
    List (String × FlakeRef)
  | [], acc => acc
  | nf :: rest, acc => nonFlakeFold rest (listInsertOrAssign acc nf.aliasId nf.ref)

mutual
def dependenciesToFlakeEntry : Dependencies → FlakeEntry
  | .mk flake fDeps nfDeps =>
    .mk flake.ref (depsListToEntries fDeps .nil) (nonFlakeFold nfDeps [])
def depsListToEntries : DepsList → FlakeEntryMap → FlakeEntryMap
  | .nil, acc => acc
  | .cons d rest, acc =>
    depsListToEntries rest
      (acc.insertOrAssign d.flake.id (dependenciesToFlakeEntry d))
end

/-- The pure tail of `getLockFile` (flake.cc lines 413-421): the lock file
derived from a resolved tree (the spec's `toLockFile`). -/
def toLockFile (deps : Dependencies) : LockFile :=
  let entry := dependenciesToFlakeEntry deps
  ⟨entry.flakeEntries, entry.nonFlakeEntries⟩

-- The references a Dependencies tree materialises into its lock file:
-- each node's flake `ref` and each non-flake dependency's `ref`.
mutual
def treeRefs : Dependencies → List FlakeRef
  | .mk flake fDeps nfDeps =>
    flake.ref :: (nfDeps.map NonFlake.ref ++ treeRefsList fDeps)
def treeRefsList : DepsList → List FlakeRef
  | .nil => []
  | .cons d rest => treeRefs d ++ treeRefsList rest
end

-- All flakes of a Dependencies tree, top first, depth-first.
mutual
def allFlakes : Dependencies → List Flake
  | .mk flake fDeps _ => flake :: allFlakesList fDeps
def allFlakesList : DepsList → List Flake
  | .nil => []
  | .cons d rest => allFlakes d ++ allFlakesList rest
end

/-! ## Value projection (flake.cc lines 439-479) -/

/-- One attribute of the structured value `makeFlakeValue` builds: either
the slot allocated for the top flake (`vTop`), which the function
allocates but never fills, or a per-dependency attribute set carrying
`description`, `outPath`, `revCount` (only when known) and the `provides`
application (the flake's opaque `provides` token applied to the whole
result). -/
inductive AttrVal where
  | uninit
  | flakeAttrs (description : String) (outPath : String)
      (revCount : Option Nat) (provides : Nat)
deriving DecidableEq, Repr

def directDepEntries : DepsList → List (String × AttrVal)
  | .nil => []
  | .cons d rest =>
    (d.flake.id, .flakeAttrs d.flake.description d.flake.path
      d.flake.revCount d.flake.vProvides) :: directDepEntries rest

/-- The attribute list of the structured value (flake.cc lines 446-473):
the `vTop` slot keyed by the top flake's id, then one entry per DIRECT
flake dependency.  The final `attrs->sort()` only reorders entries by
name; the membership and field statements below are invariant under it,
so the model keeps construction order. -/
def flakeValueEntries (deps : Dependencies) : List (String × AttrVal) :=
  (deps.flake.id, .uninit) :: directDepEntries deps.flakeDeps

/-- `makeFlakeValue` (flake.cc lines 439-479): resolve, then project. -/
def makeFlakeValue (st : EvalState) (fuel : Nat) (flakeRef : FlakeRef)
    (impureTopRef : Bool) : Except Error (List (String × AttrVal)) := do
  let deps ← resolveFlake st fuel flakeRef impureTopRef true
  .ok (flakeValueEntries deps)

/-! ## Auxiliary functions used by the statements -/

def depsListToList : DepsList → List Dependencies
  | .nil => []
  | .cons d rest => d :: depsListToList rest

/-- The last child in declaration order whose flake id is `k`. -/
def lastFlakeDepWith : DepsList → String → Option Dependencies
  | .nil, _ => none
  | .cons d rest, k =>
    match lastFlakeDepWith rest k with
    | some d' => some d'
    | none => if d.flake.id = k then some d else none

/-- The last non-flake child in order whose alias is `k`. -/
def lastNonFlakeWith : List NonFlake → String → Option NonFlake
  | [], _ => none
  | nf :: rest, k =>
    match lastNonFlakeWith rest k with
    | some n' => some n'
    | none => if nf.aliasId = k then some nf else none

/-! ## Concrete worlds used by the counterexamples and witnesses -/

def hex40a : String := "aaaaaaaaaaaaaaaaaaaaaaaaaaaaaaaaaaaaaaaa"
def hex40b : String := "bbbbbbbbbbbbbbbbbbbbbbbbbbbbbbbbbbbbbbbb"
def hex40c : String := "cccccccccccccccccccccccccccccccccccccccc"

def dummyDownload : String → DownloadResult := fun _ => ⟨"", none⟩

def dummyGit : String → Option String → String → GitInfo := fun _ _ _ => ⟨"", "", 0⟩

/-- A pure-mode state with inert collaborators. -/
def pureSt : EvalState :=
  { pureEval := true, userRegistryFile := none, localRegistryFile := none,
    downloadCached := dummyDownload, exportGit := dummyGit,
    pathExists := fun _ => false, isStorePath := fun _ => false,
    evalFlakeNix := fun _ => none, readLockFileAt := fun _ => none }

def mutableGithubRef : FlakeRef := ⟨.isGitHub "foo" "bar", none, none⟩

def refA : FlakeRef := ⟨.isAlias "A", none, none⟩

def refB : FlakeRef := ⟨.isAlias "B", none, none⟩

def cycleReg : FlakeRegistry := ⟨[(refA, refB), (refB, refA)]⟩

-- A three-level local-path world: /repoT requires /repoA requires /repoG.
def cexExportGit : String → Option String → String → GitInfo := fun uri _ _ =>
  if uri = "/repoT" then ⟨"/nix/store/T", hex40a, 1⟩
  else if uri = "/repoA" then ⟨"/nix/store/A", hex40b, 2⟩
  else ⟨"/nix/store/G", hex40c, 3⟩

def cexFlakeNix : String → Option FlakeNix := fun p =>
  if p = "/nix/store/T/flake.nix" then
    some ⟨some "top", some "The top flake", ["/repoA"], [], some 1⟩
  else if p = "/nix/store/A/flake.nix" then
    some ⟨some "a", some "Dep A", ["/repoG"], [], some 2⟩
  else if p = "/nix/store/G/flake.nix" then
    some ⟨some "g", some "Dep G", [], [], some 3⟩
  else none

def cexSt : EvalState :=
  { pureEval := false, userRegistryFile := none, localRegistryFile := none,
    downloadCached := dummyDownload, exportGit := cexExportGit,
    pathExists := fun _ => true, isStorePath := fun _ => true,
    evalFlakeNix := cexFlakeNix, readLockFileAt := fun _ => none }

def cexTopRef : FlakeRef := ⟨.isPath "/repoT", none, none⟩

-- An impure-mode world whose user registry maps an alias to a pinned
-- hosted-repo reference.
def c4RegJson : Json :=
  .obj (.cons "version" (.num 1)
    (.cons "flakes"
      (.obj (.cons "flake:nixpkgs"
        (.obj (.cons "uri" (.str ("github:owner/repo/" ++ hex40a)) .nil)) .nil))
      .nil))

def c4Etag : String := "\"" ++ hex40c ++ "\""

def c4St : EvalState :=
  { pureEval := false, userRegistryFile := some c4RegJson, localRegistryFile := none,
    downloadCached := fun _ => ⟨"/nix/store/N", some c4Etag⟩,
    exportGit := dummyGit, pathExists := fun _ => true,
    isStorePath := fun _ => true,
    evalFlakeNix := fun _ => some ⟨some "nixpkgs", some "d", [], [], some 7⟩,
    readLockFileAt := fun _ => none }

def c4AliasRef : FlakeRef := ⟨.isAlias "nixpkgs", none, none⟩

def c4Flake : Flake :=
  ⟨"nixpkgs", "d", c4AliasRef, "/nix/store/N", none, [], [], 7, ⟨.nil, []⟩⟩

-- An impure-mode world fetching a hosted-repo shorthand directly; the
-- downloader pins revision hex40c, so the produced ref is the rebase of
-- the base reference onto that revision, the original ref field
-- ("master") notwithstanding.
def c4bSt : EvalState :=
  { pureEval := false, userRegistryFile := none, localRegistryFile := none,
    downloadCached := fun _ => ⟨"/nix/store/M", some c4Etag⟩,
    exportGit := dummyGit, pathExists := fun _ => true,
    isStorePath := fun _ => true,
    evalFlakeNix := fun _ => some ⟨some "ghflake", some "d", [], [], some 9⟩,
    readLockFileAt := fun _ => none }

def c4bRef : FlakeRef := ⟨.isGitHub "owner2" "repo2", some "master", none⟩

def c4bFlake : Flake :=
  ⟨"ghflake", "d", ⟨.isGitHub "owner2" "repo2", none, some hex40c⟩,
   "/nix/store/M", none, [], [], 9, ⟨.nil, []⟩⟩

-- A small fully pinned Dependencies tree for the lock-file round trip.
def rtRef1 : FlakeRef := ⟨.isGitHub "own" "repo", none, some hex40a⟩

def rtRef2 : FlakeRef := ⟨.isGitHub "own2" "repo2", none, some hex40b⟩

def rtRef3 : FlakeRef := ⟨.isGitHub "own3" "repo3", none, some hex40c⟩

def rtFlake1 : Flake := ⟨"top", "t", rtRef1, "/nix/store/T", none, [], [], 1, ⟨.nil, []⟩⟩

def rtFlake2 : Flake := ⟨"child", "c", rtRef2, "/nix/store/C", some 2, [], [], 2, ⟨.nil, []⟩⟩

def rtDeps : Dependencies :=
  .mk rtFlake1 (.cons (.mk rtFlake2 .nil []) .nil) [⟨rtRef3, "/nix/store/N", "nfa"⟩]

-- A lock file carrying a mutable reference at nesting depth two.
def c6MutRef : FlakeRef := ⟨.isGitHub "m" "n", some "master", none⟩

def c6LF : LockFile :=
  ⟨.cons "outer" (.mk rtRef1 (.cons "inner" (.mk c6MutRef .nil []) .nil) []) .nil, []⟩

/-! ## Helper lemmas -/

theorem except_bind_ok {α β : Type} {x : Except Error α} {f : α → Except Error β} {b : β}
    (h : (x >>= f) = .ok b) : ∃ a, x = .ok a ∧ f a = .ok b := by
  cases x with
  | error e => simp [Bind.bind, Except.bind] at h
  | ok a => exact ⟨a, rfl, by simpa [Bind.bind, Except.bind] using h⟩

theorem FlakeEntryMap.lookup_insertOrAssign (acc : FlakeEntryMap) (k : String)
    (v : FlakeEntry) (key : String) :
    (acc.insertOrAssign k v).lookup key = if k = key then some v else acc.lookup key := by
  cases acc with
  | nil => simp [insertOrAssign, lookup]
  | cons k' v' rest =>
    have ih := FlakeEntryMap.lookup_insertOrAssign rest k v key
    by_cases hk : k' = k
    · subst hk
      simp only [insertOrAssign, if_pos rfl, lookup]
      by_cases hkey : k' = key <;> simp [hkey]
    · simp only [insertOrAssign, if_neg hk, lookup]
      by_cases hkey : k' = key
      · subst hkey
        have : ¬ k = k' := fun h => hk h.symm
        simp [this]
      · simp [hkey, ih]

theorem listLookup_insertOrAssign {α : Type} (acc : List (String × α)) (k : String)
    (v : α) (key : String) :
    listLookup (listInsertOrAssign acc k v) key =
      if k = key then some v else listLookup acc key := by
  induction acc with
  | nil => simp [listInsertOrAssign, listLookup]
  | cons e rest ih =>
    obtain ⟨k', v'⟩ := e
    by_cases hk : k' = k
    · subst hk
      simp only [listInsertOrAssign, if_pos rfl, listLookup]
      by_cases hkey : k' = key <;> simp [hkey]
    · simp only [listInsertOrAssign, if_neg hk, listLookup]
      by_cases hkey : k' = key
      · subst hkey
        have : ¬ k = k' := fun h => hk h.symm
        simp [this]
      · simp [hkey, ih]

theorem FlakeEntryMap.hasKey_insertOrAssign (acc : FlakeEntryMap) (k : String)
    (v : FlakeEntry) (key : String) :
    (acc.insertOrAssign k v).hasKey key = (acc.hasKey key || k == key) := by
  cases acc with
  | nil => simp [insertOrAssign, hasKey]
  | cons k' v' rest =>
    have ih := FlakeEntryMap.hasKey_insertOrAssign rest k v key
    by_cases hk : k' = k
    · subst hk
      simp only [insertOrAssign, if_pos rfl, hasKey]
      by_cases hkey : (k' == key) = true <;> simp [hkey]
    · simp [insertOrAssign, if_neg hk, hasKey, ih, Bool.or_assoc]

theorem listHasKey_insertOrAssign {α : Type} (acc : List (String × α)) (k : String)
    (v : α) (key : String) :
    listHasKey (listInsertOrAssign acc k v) key = (listHasKey acc key || k == key) := by
  induction acc with
  | nil => simp [listInsertOrAssign, listHasKey]
  | cons e rest ih =>
    obtain ⟨k', v'⟩ := e
    by_cases hk : k' = k
    · subst hk
      simp only [listInsertOrAssign, if_pos rfl, listHasKey]
      by_cases hkey : (k' == key) = true <;> simp [hkey]
    · simp [listInsertOrAssign, if_neg hk, listHasKey, ih, Bool.or_assoc]

theorem mapKeysND_insertOrAssign (acc : FlakeEntryMap) (k : String) (v : FlakeEntry)
    (h : mapKeysND acc = true) : mapKeysND (acc.insertOrAssign k v) = true := by
  cases acc with
  | nil => simp [FlakeEntryMap.insertOrAssign, mapKeysND, FlakeEntryMap.hasKey]
  | cons k' v' rest =>
    simp only [mapKeysND, Bool.and_eq_true] at h
    by_cases hk : k' = k
    · subst hk
      simp only [FlakeEntryMap.insertOrAssign, if_pos rfl, mapKeysND, Bool.and_eq_true]
      exact ⟨h.1, h.2⟩
    · simp only [FlakeEntryMap.insertOrAssign, if_neg hk, mapKeysND,
        FlakeEntryMap.hasKey_insertOrAssign, Bool.and_eq_true]
      constructor
      · have hkk : (k == k') = false :=
          beq_eq_false_iff_ne.mpr (fun hh => hk hh.symm)
        have h1 : rest.hasKey k' = false := by simpa using h.1
        simp [h1, hkk]
      · exact mapKeysND_insertOrAssign rest k v h.2

theorem keysNodup_insertOrAssign {α : Type} (acc : List (String × α)) (k : String) (v : α)
    (h : keysNodup acc = true) : keysNodup (listInsertOrAssign acc k v) = true := by
  induction acc with
  | nil => simp [listInsertOrAssign, keysNodup, listHasKey]
  | cons e rest ih =>
    obtain ⟨k', v'⟩ := e
    simp only [keysNodup, Bool.and_eq_true] at h
    by_cases hk : k' = k
    · subst hk
      simp only [listInsertOrAssign, if_pos rfl, keysNodup, Bool.and_eq_true]
      exact ⟨h.1, h.2⟩
    · simp only [listInsertOrAssign, if_neg hk, keysNodup,
        listHasKey_insertOrAssign, Bool.and_eq_true]
      constructor
      · have hkk : (k == k') = false :=
          beq_eq_false_iff_ne.mpr (fun hh => hk hh.symm)
        have h1 : listHasKey rest k' = false := by simpa using h.1
        simp [h1, hkk]
      · exact ih h.2

theorem depsListToEntries_lookup (l : DepsList) (acc : FlakeEntryMap) (k : String) :
    (depsListToEntries l acc).lookup k =
      (match lastFlakeDepWith l k with
       | some d => some (dependenciesToFlakeEntry d)
       | none => acc.lookup k) := by
  cases l with
  | nil => simp [depsListToEntries, lastFlakeDepWith]
  | cons d rest =>
    have ih := depsListToEntries_lookup rest
      (acc.insertOrAssign d.flake.id (dependenciesToFlakeEntry d)) k
    simp only [depsListToEntries, lastFlakeDepWith]
    rw [ih]
    cases hl : lastFlakeDepWith rest k with
    | some d' => simp
    | none =>
      simp only [FlakeEntryMap.lookup_insertOrAssign]
      by_cases hid : d.flake.id = k <;> simp [hid]

theorem nonFlakeFold_lookup (l : List NonFlake) (acc : List (String × FlakeRef)) (k : String) :
    listLookup (nonFlakeFold l acc) k =
      (match lastNonFlakeWith l k with
       | some nf => some nf.ref
       | none => listLookup acc k) := by
  induction l generalizing acc with
  | nil => simp [nonFlakeFold, lastNonFlakeWith]
  | cons nf rest ih =>
    simp only [nonFlakeFold, lastNonFlakeWith]
    rw [ih]
    cases hl : lastNonFlakeWith rest k with
    | some nf' => simp
    | none =>
      simp only [listLookup_insertOrAssign]
      by_cases hid : nf.aliasId = k <;> simp [hid]

theorem depsListToEntries_keysND (l : DepsList) (acc : FlakeEntryMap)
    (h : mapKeysND acc = true) : mapKeysND (depsListToEntries l acc) = true := by
  cases l with
  | nil => simpa [depsListToEntries] using h
  | cons d rest =>
    simp only [depsListToEntries]
    exact depsListToEntries_keysND rest _ (mapKeysND_insertOrAssign _ _ _ h)

theorem nonFlakeFold_keysND (l : List NonFlake) (acc : List (String × FlakeRef))
    (h : keysNodup acc = true) : keysNodup (nonFlakeFold l acc) = true := by
  induction l generalizing acc with
  | nil => simpa [nonFlakeFold] using h
  | cons nf rest ih =>
    simp only [nonFlakeFold]
    exact ih _ (keysNodup_insertOrAssign _ _ _ h)

theorem directDepEntries_eq (l : DepsList) :
    directDepEntries l = (depsListToList l).map (fun d =>
      (d.flake.id, AttrVal.flakeAttrs d.flake.description d.flake.path
        d.flake.revCount d.flake.vProvides)) := by
  cases l with
  | nil => simp [directDepEntries, depsListToList]
  | cons d rest => simp [directDepEntries, depsListToList, directDepEntries_eq rest]

theorem fetchResolved_rev_isSome (st : EvalState) (fRef : FlakeRef)
    (i : Bool) (si : FlakeSourceInfo) (h : fetchResolved st fRef i = .ok si) :
    si.rev.isSome = true := by
  obtain ⟨data, ref, rev⟩ := fRef
  cases data with
  | isGitHub owner repo =>
    simp only [fetchResolved] at h
    split at h
    · exact absurd h (by simp)
    · split at h
      · exact absurd h (by simp)
      · split at h
        · exact absurd h (by simp)
        · cases h
          rfl
  | isGit uri =>
    simp only [fetchResolved] at h
    cases h
    rfl
  | isPath path =>
    simp only [fetchResolved] at h
    split at h
    · exact absurd h (by simp)
    · cases h
      rfl
  | isAlias a =>
    simp only [fetchResolved] at h
    exact absurd h (by simp)

theorem fetchFlake_rev_isSome (st : EvalState) (fuel : Nat) (r : FlakeRef)
    (i : Bool) (si : FlakeSourceInfo) (h : fetchFlake st fuel r i = .ok si) :
    si.rev.isSome = true := by
  unfold fetchFlake at h
  obtain ⟨regs, hregs, h⟩ := except_bind_ok h
  obtain ⟨fRef, hlook, h⟩ := except_bind_ok h
  exact fetchResolved_rev_isSome st fRef i si h

theorem rebasedRef_spec (flakeRef : FlakeRef) (si : FlakeSourceInfo) (r : FlakeRef)
    (hrev : si.rev.isSome = true) (h : rebasedRef flakeRef si = .ok r) :
    (match flakeRef.data with
     | .isGitHub _ _ => ∃ rv, si.rev = some rv ∧
         parseRefE (flakeRef.baseRef.to_string ++ "/" ++ rv) = .ok r
     | _ => r = flakeRef) := by
  cases hdata : flakeRef.data with
  | isGitHub owner repo =>
    unfold rebasedRef at h
    rw [hdata] at h
    cases hr : si.rev with
    | none => rw [hr] at hrev; simp at hrev
    | some rv =>
      rw [hr] at h
      exact ⟨rv, rfl, h⟩
  | isAlias a =>
    unfold rebasedRef at h
    rw [hdata] at h
    simp only [Except.ok.injEq] at h
    simp [h]
  | isGit uri =>
    unfold rebasedRef at h
    rw [hdata] at h
    simp only [Except.ok.injEq] at h
    simp [h]
  | isPath p =>
    unfold rebasedRef at h
    rw [hdata] at h
    simp only [Except.ok.injEq] at h
    simp [h]

theorem loadFlake_ref (st : EvalState) (fuel : Nat) (flakeRef : FlakeRef)
    (si : FlakeSourceInfo) (f : Flake) (h : loadFlake st fuel flakeRef si = .ok f) :
    rebasedRef flakeRef si = .ok f.ref := by
  unfold loadFlake at h
  split at h
  · exact absurd h (by simp)
  split at h
  · exact absurd h (by simp)
  split at h
  · exact absurd h (by simp)
  split at h
  · exact absurd h (by simp)
  split at h
  · exact absurd h (by simp)
  split at h
  · exact absurd h (by simp)
  split at h
  · exact absurd h (by simp)
  split at h
  · exact absurd h (by simp)
  cases h
  assumption

/-! ### Round-trip and purity machinery (C5, C6)

The write side emits every stored reference as its canonical text and the
read side re-parses, validates and re-inserts them; the lemmas below track
the references in reading order through that pipeline. -/

theorem find?_append_some {α : Type} {l1 : List α} {p : α → Bool} {x : α}
    (h : l1.find? p = some x) (l2 : List α) : (l1 ++ l2).find? p = some x := by
  induction l1 with
  | nil => simp [List.find?] at h
  | cons a rest ih =>
    cases hp : p a with
    | true =>
      rw [List.find?_cons_of_pos _ hp] at h
      rw [List.cons_append, List.find?_cons_of_pos _ hp]
      exact h
    | false =>
      rw [List.find?_cons_of_neg _ (by simp [hp])] at h
      rw [List.cons_append, List.find?_cons_of_neg _ (by simp [hp])]
      exact ih h

theorem find?_append_none {α : Type} {l1 : List α} {p : α → Bool}
    (h : l1.find? p = none) (l2 : List α) : (l1 ++ l2).find? p = l2.find? p := by
  induction l1 with
  | nil => simp
  | cons a rest ih =>
    cases hp : p a with
    | true =>
      rw [List.find?_cons_of_pos _ hp] at h
      simp at h
    | false =>
      rw [List.find?_cons_of_neg _ (by simp [hp])] at h
      rw [List.cons_append, List.find?_cons_of_neg _ (by simp [hp])]
      exact ih h

theorem find?_not_of_all {α : Type} (l : List α) (p : α → Bool) (h : l.all p = true) :
    l.find? (fun x => !p x) = none := by
  induction l with
  | nil => rfl
  | cons a rest ih =>
    simp only [List.all_cons, Bool.and_eq_true] at h
    simp only [List.find?, h.1, Bool.not_true]
    exact ih h.2

theorem find?_some_of_mem {α : Type} (l : List α) (p : α → Bool) (x : α)
    (hmem : x ∈ l) (hp : p x = true) : ∃ y, l.find? p = some y := by
  induction l with
  | nil => simp at hmem
  | cons a rest ih =>
    cases hpa : p a with
    | true => exact ⟨a, by simp [List.find?, hpa]⟩
    | false =>
      rcases List.mem_cons.mp hmem with rfl | hmem'
      · rw [hpa] at hp; simp at hp
      · obtain ⟨y, hy⟩ := ih hmem'
        exact ⟨y, by simp [List.find?, hpa, hy]⟩

theorem listHasKey_append {α : Type} (a b : List (String × α)) (k : String) :
    listHasKey (a ++ b) k = (listHasKey a k || listHasKey b k) := by
  induction a with
  | nil => simp [listHasKey]
  | cons e rest ih => obtain ⟨k', v'⟩ := e; simp [listHasKey, ih, Bool.or_assoc]

theorem listInsertOrAssign_append {α : Type} (acc : List (String × α)) (k : String)
    (v : α) (h : listHasKey acc k = false) :
    listInsertOrAssign acc k v = acc ++ [(k, v)] := by
  induction acc with
  | nil => simp [listInsertOrAssign]
  | cons e rest ih =>
    obtain ⟨k', v'⟩ := e
    simp only [listHasKey, Bool.or_eq_false_iff] at h
    have hk : ¬ k' = k := by
      intro hh
      rw [hh] at h
      simp at h
    simp [listInsertOrAssign, hk, ih h.2]

theorem listInsertAll_append {α : Type} (l acc : List (String × α))
    (hnd : keysNodup l = true)
    (hdisj : ∀ k, listHasKey l k = true → listHasKey acc k = false) :
    listInsertAll acc l = acc ++ l := by
  cases l with
  | nil => simp [listInsertAll]
  | cons e rest =>
    obtain ⟨k, v⟩ := e
    simp only [keysNodup, Bool.and_eq_true] at hnd
    have hk : listHasKey acc k = false := hdisj k (by simp [listHasKey])
    have hdisj2 : ∀ k', listHasKey rest k' = true →
        listHasKey (acc ++ [(k, v)]) k' = false := by
      intro k' hk'
      rw [listHasKey_append]
      have h1 : listHasKey acc k' = false := hdisj k' (by simp [listHasKey, hk'])
      have h2 : (k == k') = false := by
        by_cases hkk : k = k'
        · exfalso
          subst hkk
          have hzz := hnd.1
          rw [hk'] at hzz
          simp at hzz
        · simp [hkk]
      simp [h1, listHasKey, h2]
    simp only [listInsertAll, listInsertOrAssign_append acc k v hk]
    rw [listInsertAll_append rest (acc ++ [(k, v)]) hnd.2 hdisj2]
    simp

theorem listInsertAll_nil {α : Type} (l : List (String × α)) (hnd : keysNodup l = true) :
    listInsertAll [] l = l := by
  have : ∀ k, listHasKey l k = true → listHasKey ([] : List (String × α)) k = false :=
    fun _ _ => rfl
  rw [listInsertAll_append l [] hnd this]
  simp

theorem FlakeEntryMap.hasKey_append (a b : FlakeEntryMap) (k : String) :
    (a.append b).hasKey k = (a.hasKey k || b.hasKey k) := by
  cases a with
  | nil => simp [append, hasKey]
  | cons k' v' rest =>
    simp [append, hasKey, FlakeEntryMap.hasKey_append rest b k, Bool.or_assoc]

theorem FlakeEntryMap.insertOrAssign_append (acc : FlakeEntryMap) (k : String)
    (v : FlakeEntry) (h : acc.hasKey k = false) :
    acc.insertOrAssign k v = acc.append (.cons k v .nil) := by
  cases acc with
  | nil => simp [insertOrAssign, append]
  | cons k' v' rest =>
    simp only [hasKey, Bool.or_eq_false_iff] at h
    have hk : ¬ k' = k := by
      intro hh
      rw [hh] at h
      simp at h
    simp [insertOrAssign, hk, append,
      FlakeEntryMap.insertOrAssign_append rest k v h.2]

theorem FlakeEntryMap.append_nil (m : FlakeEntryMap) : m.append .nil = m := by
  cases m with
  | nil => rfl
  | cons k v rest => simp [append, FlakeEntryMap.append_nil rest]

theorem FlakeEntryMap.append_assoc (a b c : FlakeEntryMap) :
    (a.append b).append c = a.append (b.append c) := by
  cases a with
  | nil => rfl
  | cons k v rest => simp [append, FlakeEntryMap.append_assoc rest b c]

theorem insertAllMap_append (m acc : FlakeEntryMap)
    (hnd : mapKeysND m = true)
    (hdisj : ∀ k, m.hasKey k = true → acc.hasKey k = false) :
    insertAllMap acc m = acc.append m := by
  cases m with
  | nil =>
    simp only [insertAllMap]
    exact (FlakeEntryMap.append_nil acc).symm
  | cons k v rest =>
    simp only [mapKeysND, Bool.and_eq_true] at hnd
    have hk : acc.hasKey k = false := hdisj k (by simp [FlakeEntryMap.hasKey])
    have hdisj2 : ∀ k', rest.hasKey k' = true →
        (acc.append (.cons k v .nil)).hasKey k' = false := by
      intro k' hk'
      rw [FlakeEntryMap.hasKey_append]
      have h1 : acc.hasKey k' = false := hdisj k' (by simp [FlakeEntryMap.hasKey, hk'])
      have h2 : (k == k') = false := by
        by_cases hkk : k = k'
        · exfalso
          subst hkk
          have hzz := hnd.1
          rw [hk'] at hzz
          simp at hzz
        · simp [hkk]
      simp [h1, FlakeEntryMap.hasKey, h2]
    simp only [insertAllMap, FlakeEntryMap.insertOrAssign_append acc k v hk]
    rw [insertAllMap_append rest (acc.append (.cons k v .nil)) hnd.2 hdisj2]
    rw [FlakeEntryMap.append_assoc]
    rfl

theorem insertAllMap_nil (m : FlakeEntryMap) (hnd : mapKeysND m = true) :
    insertAllMap .nil m = m := by
  have : ∀ k, m.hasKey k = true → FlakeEntryMap.hasKey .nil k = false := fun _ _ => rfl
  rw [insertAllMap_append m .nil hnd this]
  rfl

/-! The field accesses the reader performs on a written entry. -/

theorem jsonGet_toJson_uri (r : FlakeRef) (fes : FlakeEntryMap)
    (nfes : List (String × FlakeRef)) :
    jsonGet (flakeEntryToJson (.mk r fes nfes)) "uri" = .str r.to_string := by
  simp [flakeEntryToJson, jsonGet, JsonObj.find]

theorem jsonGet_toJson_nf (r : FlakeRef) (fes : FlakeEntryMap)
    (nfes : List (String × FlakeRef)) :
    toObjEntries (jsonGet (flakeEntryToJson (.mk r fes nfes)) "nonFlakeRequires") =
      nonFlakeToObj nfes := by
  cases nfes with
  | nil =>
    cases fes with
    | nil =>
      simp [flakeEntryToJson, nfKeyObj, flakeEntryMapToObj, reqKeyObj,
        JsonObj.appendObj, jsonGet, JsonObj.find, toObjEntries, nonFlakeToObj]
    | cons k v rest =>
      simp [flakeEntryToJson, nfKeyObj, flakeEntryMapToObj, reqKeyObj,
        JsonObj.appendObj, jsonGet, JsonObj.find, toObjEntries, nonFlakeToObj]
  | cons e rest0 =>
    simp [flakeEntryToJson, nfKeyObj, JsonObj.appendObj, jsonGet, JsonObj.find,
      toObjEntries]

theorem jsonGet_toJson_req (r : FlakeRef) (fes : FlakeEntryMap)
    (nfes : List (String × FlakeRef)) :
    toObjEntries (jsonGet (flakeEntryToJson (.mk r fes nfes)) "requires") =
      flakeEntryMapToObj fes := by
  cases fes with
  | nil =>
    cases nfes with
    | nil =>
      simp [flakeEntryToJson, nfKeyObj, flakeEntryMapToObj, reqKeyObj,
        JsonObj.appendObj, jsonGet, JsonObj.find, toObjEntries]
    | cons e rest0 =>
      simp [flakeEntryToJson, nfKeyObj, flakeEntryMapToObj, reqKeyObj,
        JsonObj.appendObj, jsonGet, JsonObj.find, toObjEntries]
  | cons k v rest =>
    cases nfes with
    | nil =>
      simp [flakeEntryToJson, nfKeyObj, flakeEntryMapToObj, reqKeyObj,
        JsonObj.appendObj, jsonGet, JsonObj.find, toObjEntries]
    | cons e rest0 =>
      simp [flakeEntryToJson, nfKeyObj, flakeEntryMapToObj, reqKeyObj,
        JsonObj.appendObj, jsonGet, JsonObj.find, toObjEntries]

theorem readNonFlakeObj_written (l : List (String × FlakeRef))
    (acc : List (String × FlakeRef))
    (hrt : (l.map Prod.snd).all parseRT = true) :
    readNonFlakeObj (nonFlakeToObj l) acc =
      (match (l.map Prod.snd).find? (fun r => !r.isImmutable) with
       | some r => .error (.fetchMutable r.to_string)
       | none => .ok (listInsertAll acc l)) := by
  cases l with
  | nil => simp [nonFlakeToObj, readNonFlakeObj, List.find?, listInsertAll]
  | cons e rest =>
    obtain ⟨k, r⟩ := e
    simp only [List.map_cons, List.all_cons, Bool.and_eq_true] at hrt
    have hparse : parseFlakeRef r.to_string = some r := of_decide_eq_true hrt.1
    have hval : jsonValueStr (.obj (.cons "uri" (.str r.to_string) .nil)) "uri" "" =
        .ok r.to_string := rfl
    simp only [nonFlakeToObj, readNonFlakeObj, hval, parseRefE, hparse, Bind.bind,
      Except.bind, List.map_cons, List.find?]
    cases hmut : r.isImmutable with
    | false => simp [hmut]
    | true =>
      simp only [hmut, Bool.not_true, Bool.false_eq_true, if_false]
      rw [readNonFlakeObj_written rest (listInsertOrAssign acc k r) hrt.2]
      rfl

mutual

theorem readFlakeEntry_written (e : FlakeEntry) (fuel : Nat)
    (hd : entryDepth e ≤ fuel) (hnd : entryND e = true)
    (hrt : (entryRefs e).all parseRT = true) :
    readFlakeEntry fuel (flakeEntryToJson e) =
      (match (entryRefs e).find? (fun r => !r.isImmutable) with
       | some r => .error (.fetchMutable r.to_string)
       | none => .ok e) := by
  obtain ⟨r, fes, nfes⟩ := e
  simp only [entryDepth] at hd
  obtain ⟨f, rfl⟩ : ∃ f, fuel = f + 1 := ⟨fuel - 1, by omega⟩
  have hf : entryMapDepth fes ≤ f := by omega
  simp only [entryND, Bool.and_eq_true] at hnd
  obtain ⟨⟨hndNf, hndKeys⟩, hndEntries⟩ := hnd
  simp only [entryRefs, List.all_cons, Bool.and_eq_true, List.all_append] at hrt
  obtain ⟨hrtR, hrtNf, hrtFes⟩ := hrt
  have hparse : parseFlakeRef r.to_string = some r := of_decide_eq_true hrtR
  simp only [readFlakeEntry, jsonGet_toJson_uri, jsonGet_toJson_nf, jsonGet_toJson_req,
    parseRefE, hparse, Bind.bind, Except.bind]
  simp only [entryRefs, List.find?]
  cases hmut : r.isImmutable with
  | false => simp [hmut]
  | true =>
    simp only [hmut, Bool.not_true, Bool.false_eq_true, if_false]
    rw [readNonFlakeObj_written nfes [] hrtNf]
    cases hnf : (nfes.map Prod.snd).find? (fun x => !x.isImmutable) with
    | some rm =>
      simp only
      rw [find?_append_some hnf (entryMapRefs fes)]
    | none =>
      simp only
      rw [find?_append_none hnf (entryMapRefs fes)]
      rw [listInsertAll_nil nfes hndNf]
      rw [readRequiresObj_written fes f .nil hf hndEntries hrtFes]
      cases hfes : (entryMapRefs fes).find? (fun x => !x.isImmutable) with
      | some rm => simp
      | none => simp [insertAllMap_nil fes hndKeys]

theorem readRequiresObj_written (m : FlakeEntryMap) (fuel : Nat) (acc : FlakeEntryMap)
    (hd : entryMapDepth m ≤ fuel) (hnd : mapEntriesND m = true)
    (hrt : (entryMapRefs m).all parseRT = true) :
    readRequiresObjF (readFlakeEntry fuel) (flakeEntryMapToObj m) acc =
      (match (entryMapRefs m).find? (fun r => !r.isImmutable) with
       | some r => .error (.fetchMutable r.to_string)
       | none => .ok (insertAllMap acc m)) := by
  cases m with
  | nil => simp [flakeEntryMapToObj, readRequiresObjF, entryMapRefs, List.find?, insertAllMap]
  | cons k v rest =>
    simp only [entryMapDepth] at hd
    have hdv : entryDepth v ≤ fuel := le_trans (le_max_left _ _) hd
    have hdr : entryMapDepth rest ≤ fuel := le_trans (le_max_right _ _) hd
    simp only [mapEntriesND, Bool.and_eq_true] at hnd
    simp only [entryMapRefs, List.all_append, Bool.and_eq_true] at hrt
    simp only [flakeEntryMapToObj, readRequiresObjF, Bind.bind, Except.bind]
    rw [readFlakeEntry_written v fuel hdv hnd.1 hrt.1]
    simp only [entryMapRefs]
    cases hv : (entryRefs v).find? (fun x => !x.isImmutable) with
    | some rm =>
      simp only
      rw [find?_append_some hv (entryMapRefs rest)]
    | none =>
      simp only
      rw [find?_append_none hv (entryMapRefs rest)]
      rw [readRequiresObj_written rest fuel (acc.insertOrAssign k v) hdr hnd.2 hrt.2]
      rfl

end

theorem writeLockFile_version (lf : LockFile) :
    jsonValueInt (writeLockFile lf) "version" 0 = .ok 1 := by
  simp [writeLockFile, jsonValueInt, JsonObj.find]

theorem writeLockFile_nf (lf : LockFile) :
    toObjEntries (jsonGet (writeLockFile lf) "nonFlakeRequires") =
      nonFlakeToObj lf.nonFlakeEntries := by
  obtain ⟨fes, nfes⟩ := lf
  cases nfes with
  | nil => simp [writeLockFile, jsonGet, JsonObj.find, toObjEntries, nonFlakeToObj]
  | cons e rest => simp [writeLockFile, jsonGet, JsonObj.find, toObjEntries]

theorem writeLockFile_req (lf : LockFile) :
    toObjEntries (jsonGet (writeLockFile lf) "requires") =
      flakeEntryMapToObj lf.flakeEntries := by
  obtain ⟨fes, nfes⟩ := lf
  cases fes with
  | nil =>
    cases nfes with
    | nil =>
      simp [writeLockFile, jsonGet, JsonObj.find, toObjEntries, reqKeyObj,
        flakeEntryMapToObj]
    | cons e rest =>
      simp [writeLockFile, jsonGet, JsonObj.find, toObjEntries, reqKeyObj,
        flakeEntryMapToObj]
  | cons k v rest =>
    cases nfes with
    | nil =>
      simp [writeLockFile, jsonGet, JsonObj.find, toObjEntries, reqKeyObj,
        flakeEntryMapToObj]
    | cons e rest0 =>
      simp [writeLockFile, jsonGet, JsonObj.find, toObjEntries, reqKeyObj,
        flakeEntryMapToObj]

/-- The behaviour of reading back a written lock file: an error naming the
first mutable stored reference when one exists, the original lock file
otherwise. -/
theorem readLockFileDoc_written (lf : LockFile) (fuel : Nat)
    (hd : entryMapDepth lf.flakeEntries ≤ fuel)
    (hnd : lockFileND lf = true)
    (hrt : (lockFileRefs lf).all parseRT = true) :
    readLockFileDoc fuel (writeLockFile lf) =
      (match (lockFileRefs lf).find? (fun r => !r.isImmutable) with
       | some r => .error (.fetchMutable r.to_string)
       | none => .ok lf) := by
  simp only [lockFileND, Bool.and_eq_true] at hnd
  obtain ⟨⟨hndNf, hndKeys⟩, hndEntries⟩ := hnd
  simp only [lockFileRefs, List.all_append, Bool.and_eq_true] at hrt
  obtain ⟨hrtNf, hrtFes⟩ := hrt
  simp only [readLockFileDoc, writeLockFile_version, writeLockFile_nf, writeLockFile_req,
    Bind.bind, Except.bind]
  simp only [show (1 : Int) ≠ 1 ↔ False from by simp, if_false]
  rw [readNonFlakeObj_written lf.nonFlakeEntries [] hrtNf]
  simp only [lockFileRefs]
  cases hnf : (lf.nonFlakeEntries.map Prod.snd).find? (fun x => !x.isImmutable) with
  | some rm =>
    simp only
    rw [find?_append_some hnf (entryMapRefs lf.flakeEntries)]
  | none =>
    simp only
    rw [find?_append_none hnf (entryMapRefs lf.flakeEntries)]
    rw [listInsertAll_nil lf.nonFlakeEntries hndNf]
    rw [readRequiresObj_written lf.flakeEntries fuel .nil hd hndEntries hrtFes]
    cases hfes : (entryMapRefs lf.flakeEntries).find? (fun x => !x.isImmutable) with
    | some rm => simp
    | none => simp [insertAllMap_nil lf.flakeEntries hndKeys]

/-! Transfer from a Dependencies tree to its derived lock file. -/

theorem mapEntriesND_insertOrAssign (acc : FlakeEntryMap) (k : String) (v : FlakeEntry)
    (ha : mapEntriesND acc = true) (hv : entryND v = true) :
    mapEntriesND (acc.insertOrAssign k v) = true := by
  cases acc with
  | nil => simp [FlakeEntryMap.insertOrAssign, mapEntriesND, hv]
  | cons k' v' rest =>
    simp only [mapEntriesND, Bool.and_eq_true] at ha
    by_cases hk : k' = k
    · subst hk
      simp [FlakeEntryMap.insertOrAssign, mapEntriesND, hv, ha.2]
    · simp only [FlakeEntryMap.insertOrAssign, if_neg hk, mapEntriesND, Bool.and_eq_true]
      exact ⟨ha.1, mapEntriesND_insertOrAssign rest k v ha.2 hv⟩

theorem entryMapRefs_insertOrAssign_all (acc : FlakeEntryMap) (k : String)
    (v : FlakeEntry) (p : FlakeRef → Bool)
    (ha : (entryMapRefs acc).all p = true) (hv : (entryRefs v).all p = true) :
    (entryMapRefs (acc.insertOrAssign k v)).all p = true := by
  cases acc with
  | nil => simp [FlakeEntryMap.insertOrAssign, entryMapRefs, List.all_append, hv]
  | cons k' v' rest =>
    simp only [entryMapRefs, List.all_append, Bool.and_eq_true] at ha
    by_cases hk : k' = k
    · subst hk
      simp [FlakeEntryMap.insertOrAssign, entryMapRefs, List.all_append, hv, ha.2]
    · simp only [FlakeEntryMap.insertOrAssign, if_neg hk, entryMapRefs, List.all_append,
        Bool.and_eq_true]
      exact ⟨ha.1, entryMapRefs_insertOrAssign_all rest k v p ha.2 hv⟩

theorem listInsertOrAssign_snd_all {α : Type} (acc : List (String × α)) (k : String)
    (v : α) (p : α → Bool)
    (ha : (acc.map Prod.snd).all p = true) (hv : p v = true) :
    ((listInsertOrAssign acc k v).map Prod.snd).all p = true := by
  induction acc with
  | nil => simp [listInsertOrAssign, hv]
  | cons e rest ih =>
    obtain ⟨k', v'⟩ := e
    simp only [List.map_cons, List.all_cons, Bool.and_eq_true] at ha
    by_cases hk : k' = k
    · subst hk
      simp [listInsertOrAssign, hv, ha.2]
    · simp only [listInsertOrAssign, if_neg hk, List.map_cons, List.all_cons,
        Bool.and_eq_true]
      exact ⟨ha.1, ih ha.2⟩

theorem nonFlakeFold_refs_all (l : List NonFlake) (acc : List (String × FlakeRef))
    (p : FlakeRef → Bool)
    (hacc : (acc.map Prod.snd).all p = true) (h : (l.map NonFlake.ref).all p = true) :
    ((nonFlakeFold l acc).map Prod.snd).all p = true := by
  induction l generalizing acc with
  | nil => simpa [nonFlakeFold] using hacc
  | cons nf rest ih =>
    simp only [List.map_cons, List.all_cons, Bool.and_eq_true] at h
    simp only [nonFlakeFold]
    exact ih _ (listInsertOrAssign_snd_all acc nf.aliasId nf.ref p hacc h.1) h.2

mutual

theorem depsEntry_ND (d : Dependencies) : entryND (dependenciesToFlakeEntry d) = true := by
  obtain ⟨flake, fd, nfd⟩ := d
  simp only [dependenciesToFlakeEntry, entryND, Bool.and_eq_true]
  exact ⟨⟨nonFlakeFold_keysND nfd [] rfl, depsListToEntries_keysND fd .nil rfl⟩,
    depsListEntries_ND fd .nil rfl⟩

theorem depsListEntries_ND (l : DepsList) (acc : FlakeEntryMap)
    (hacc : mapEntriesND acc = true) :
    mapEntriesND (depsListToEntries l acc) = true := by
  cases l with
  | nil => simpa [depsListToEntries] using hacc
  | cons d rest =>
    simp only [depsListToEntries]
    exact depsListEntries_ND rest _
      (mapEntriesND_insertOrAssign acc d.flake.id (dependenciesToFlakeEntry d) hacc
        (depsEntry_ND d))

end

mutual

theorem depsEntry_refs_all (d : Dependencies) (p : FlakeRef → Bool)
    (h : (treeRefs d).all p = true) :
    (entryRefs (dependenciesToFlakeEntry d)).all p = true := by
  obtain ⟨flake, fd, nfd⟩ := d
  simp only [treeRefs, List.all_cons, List.all_append, Bool.and_eq_true] at h
  obtain ⟨h1, h2, h3⟩ := h
  simp only [dependenciesToFlakeEntry, entryRefs, List.all_cons, List.all_append,
    Bool.and_eq_true]
  refine ⟨h1, ?_, ?_⟩
  · exact nonFlakeFold_refs_all nfd [] p (by simp) h2
  · exact depsListEntries_refs_all fd .nil p (by simp [entryMapRefs]) h3

theorem depsListEntries_refs_all (l : DepsList) (acc : FlakeEntryMap) (p : FlakeRef → Bool)
    (hacc : (entryMapRefs acc).all p = true) (h : (treeRefsList l).all p = true) :
    (entryMapRefs (depsListToEntries l acc)).all p = true := by
  cases l with
  | nil => simpa [depsListToEntries] using hacc
  | cons d rest =>
    simp only [treeRefsList, List.all_append, Bool.and_eq_true] at h
    simp only [depsListToEntries]
    exact depsListEntries_refs_all rest _ p
      (entryMapRefs_insertOrAssign_all acc d.flake.id (dependenciesToFlakeEntry d) p hacc
        (depsEntry_refs_all d p h.1)) h.2

end

theorem toLockFile_ND (deps : Dependencies) : lockFileND (toLockFile deps) = true := by
  have h := depsEntry_ND deps
  obtain ⟨flake, fd, nfd⟩ := deps
  simp only [dependenciesToFlakeEntry, entryND, Bool.and_eq_true] at h
  simp only [toLockFile, dependenciesToFlakeEntry, lockFileND, FlakeEntry.flakeEntries,
    FlakeEntry.nonFlakeEntries, Bool.and_eq_true]
  exact h

theorem toLockFile_refs_all (deps : Dependencies) (p : FlakeRef → Bool)
    (h : (treeRefs deps).all p = true) :
    (lockFileRefs (toLockFile deps)).all p = true := by
  have he := depsEntry_refs_all deps p h
  obtain ⟨flake, fd, nfd⟩ := deps
  simp only [dependenciesToFlakeEntry, entryRefs, List.all_cons, Bool.and_eq_true] at he
  simp only [toLockFile, dependenciesToFlakeEntry, lockFileRefs, FlakeEntry.flakeEntries,
    FlakeEntry.nonFlakeEntries]
  exact he.2

/-! ## Claims -/

/-- C1 (counterexample): a successful resolution of a three-level tree
(top requires `a`, which requires `g`) whose structured value has entries
only for the top flake and the DIRECT dependency `a`; the transitive flake
`g` gets no entry, and the top flake's entry is the never-filled `vTop`
slot rather than an attribute set with the four fields.  This refutes the
claim that the value contains one entry per flake of the whole tree each
holding `description`/`outPath`/`revCount`/`provides`. -/
theorem makeFlakeValue_missing_transitive_cex :
    (resolveFlake cexSt 10 cexTopRef false true).map
        (fun t => (allFlakes t).map Flake.id) = .ok ["top", "a", "g"] ∧
    (makeFlakeValue cexSt 10 cexTopRef false).map
        (fun es => es.map Prod.fst) = .ok ["top", "a"] ∧
    (makeFlakeValue cexSt 10 cexTopRef false).map
        (fun es => listLookup es "g") = .ok none ∧
    (makeFlakeValue cexSt 10 cexTopRef false).map
        (fun es => listLookup es "top") = .ok (some .uninit) := by
  exact ⟨by decide, by decide, by decide, by decide⟩

/-- C1 (amended): for every successful resolution, the structured value
built by `makeFlakeValue` consists of exactly one entry for the top flake,
keyed by its id but left unfilled (the `vTop` slot), followed by one entry
per DIRECT flake dependency, keyed by flake id and holding `description`,
`outPath`, `revCount` (when the flake has one) and the `provides`
application; flakes at depth two or more contribute no entries. -/
theorem makeFlakeValue_entries_amended (st : EvalState) (fuel : Nat)
    (flakeRef : FlakeRef) (impureTopRef : Bool) (deps : Dependencies)
    (hres : resolveFlake st fuel flakeRef impureTopRef true = .ok deps) :
    makeFlakeValue st fuel flakeRef impureTopRef =
      .ok ((deps.flake.id, AttrVal.uninit) ::
        (depsListToList deps.flakeDeps).map (fun d =>
          (d.flake.id, AttrVal.flakeAttrs d.flake.description d.flake.path
            d.flake.revCount d.flake.vProvides))) := by
  simp [makeFlakeValue, Bind.bind, Except.bind, hres, flakeValueEntries,
    directDepEntries_eq]

/-- C1 (witness for the amended theorem): the concrete three-level world. -/
theorem makeFlakeValue_entries_amended_witness :
    ∃ deps, resolveFlake cexSt 10 cexTopRef false true = .ok deps ∧
      makeFlakeValue cexSt 10 cexTopRef false =
        .ok ((deps.flake.id, AttrVal.uninit) ::
          (depsListToList deps.flakeDeps).map (fun d =>
            (d.flake.id, AttrVal.flakeAttrs d.flake.description d.flake.path
              d.flake.revCount d.flake.vProvides))) := by
  cases h : resolveFlake cexSt 10 cexTopRef false true with
  | error e =>
    have h1 : (resolveFlake cexSt 10 cexTopRef false true).toOption = none := by
      rw [h]; rfl
    have h2 : (resolveFlake cexSt 10 cexTopRef false true).toOption ≠ none := by decide
    exact absurd h1 h2
  | ok deps =>
    exact ⟨deps, rfl, makeFlakeValue_entries_amended cexSt 10 cexTopRef false deps h⟩

/-- C2: with pure evaluation on and the impurity allowance granted at the
top level, fetching a mutable hosted-repo top reference still fails with
the purity-violation error, because `getFlake` (flake.cc line 293) never
forwards its `impureIsAllowed` argument to `fetchFlake`; `fetchFlake`
itself honours the allowance (with it, the same reference gets past the
purity gate and fails only at the inert downloader), which shows the gate
is bypassed exactly by the dropped argument.  The claim says the top-level
fetch succeeds; the code disagrees. -/
theorem getFlake_ignores_impure_allowance :
    getFlake pureSt 10 mutableGithubRef true =
      .error (.fetchMutable "github:foo/bar") ∧
    resolveFlake pureSt 10 mutableGithubRef true true =
      .error (.fetchMutable "github:foo/bar") ∧
    makeFlakeValue pureSt 10 mutableGithubRef true =
      .error (.fetchMutable "github:foo/bar") ∧
    fetchFlake pureSt 10 mutableGithubRef true =
      .error (.noETag "https://api.github.com/repos/foo/bar/tarball/master") ∧
    fetchFlake pureSt 10 mutableGithubRef false =
      .error (.fetchMutable "github:foo/bar") := by
  exact ⟨by decide, by decide, by decide, by decide, by decide⟩

/-- C3 (counterexample): with registries mapping `A → B` and `B → A`,
resolving `A` fails with a cycle error, but the message is
"found cycle in flake registries: flake:B" — it contains `B`'s textual
form only, not `A`'s, refuting the claim that the message enumerates the
textual forms of both references. -/
theorem lookupFlake_cycle_message_cex :
    lookupFlake 10 [cycleReg] refA [] =
      .error (.cycleDetected "found cycle in flake registries: flake:B") ∧
    containsStr "found cycle in flake registries: flake:B" refA.to_string = false := by
  exact ⟨by decide, by decide⟩

/-- C3 (amended): the cycle error's message enumerates the visited chain
only up to and including the first reference equal to the newly resolved
one; for registries `A → B, B → A`, resolving `A` fails with a cycle error
whose message contains `B`'s textual form (the repetition point). -/
theorem lookupFlake_cycle_message_amended :
    lookupFlake 10 [cycleReg] refA [] =
      .error (.cycleDetected ("found cycle in flake registries: " ++ refB.to_string)) ∧
    containsStr ("found cycle in flake registries: " ++ refB.to_string)
      refB.to_string = true := by
  exact ⟨by decide, by decide⟩

/-- C4 (counterexample): an alias that the registry resolves to a pinned
hosted-repo reference is fetched successfully, yet the produced Flake's
`ref` is the ORIGINAL unresolved alias (the rebase at flake.cc lines
304-308 tests the original reference's variant, and nothing else updates
`flake.ref`), refuting the claim that `ref` is always the reference
actually used for the fetch and never an unresolved Alias. -/
theorem getFlake_alias_ref_cex :
    getFlake c4St 10 c4AliasRef false = .ok c4Flake ∧
    c4Flake.ref = c4AliasRef ∧
    c4AliasRef.isDirect = false := by
  exact ⟨by decide, by decide, by decide⟩

/-- C4 (amended): for every Flake produced by `getFlake`, `ref` equals the
original input reference, except when the original reference is a
hosted-repo shorthand: then the fetch performed by `getFlake` returned a
source pinned at some revision `rv`, and `ref` is the parse of
`baseRef().to_string() + "/" + rv` — rebased onto THAT fetched revision,
independent of the original `ref` field (which `baseRef()` strips).  In
particular an alias input keeps the unresolved alias in `ref`. -/
theorem getFlake_ref_amended (st : EvalState) (fuel : Nat) (flakeRef : FlakeRef)
    (imp : Bool) (f : Flake) (h : getFlake st fuel flakeRef imp = .ok f) :
    (match flakeRef.data with
     | .isGitHub _ _ => ∃ si rv,
         fetchFlake st fuel flakeRef false = .ok si ∧ si.rev = some rv ∧
         parseRefE (flakeRef.baseRef.to_string ++ "/" ++ rv) = .ok f.ref
     | _ => f.ref = flakeRef) := by
  unfold getFlake at h
  obtain ⟨si, hfetch, hload⟩ := except_bind_ok h
  have hrev := fetchFlake_rev_isSome st fuel flakeRef false si hfetch
  have hr := loadFlake_ref st fuel flakeRef si f hload
  have hspec := rebasedRef_spec flakeRef si f.ref hrev hr
  cases hdata : flakeRef.data with
  | isGitHub owner repo =>
    rw [hdata] at hspec
    obtain ⟨rv, hsi, hparse⟩ := hspec
    exact ⟨si, rv, hfetch, hsi, hparse⟩
  | isAlias a => rw [hdata] at hspec; exact hspec
  | isGit uri => rw [hdata] at hspec; exact hspec
  | isPath p => rw [hdata] at hspec; exact hspec

/-- C4 (witness for the amended theorem): both branches — the alias world,
where the conclusion specialises to `ref` staying the original alias, and
the hosted-repo world, where the fetch pins a revision and `ref` is the
base reference rebased onto exactly that revision, the original
`ref = "master"` notwithstanding. -/
theorem getFlake_ref_amended_witness :
    (getFlake c4St 10 c4AliasRef false = .ok c4Flake ∧ c4Flake.ref = c4AliasRef) ∧
    (getFlake c4bSt 10 c4bRef false = .ok c4bFlake ∧
      ∃ si rv, fetchFlake c4bSt 10 c4bRef false = .ok si ∧ si.rev = some rv ∧
        parseRefE (c4bRef.baseRef.to_string ++ "/" ++ rv) = .ok c4bFlake.ref) := by
  constructor
  · have h : getFlake c4St 10 c4AliasRef false = .ok c4Flake := by decide
    exact ⟨h, getFlake_ref_amended c4St 10 c4AliasRef false c4Flake h⟩
  · have h : getFlake c4bSt 10 c4bRef false = .ok c4bFlake := by decide
    exact ⟨h, getFlake_ref_amended c4bSt 10 c4bRef false c4bFlake h⟩

/-- C7: registry lookup takes the first registry (in precedence order)
containing a matching entry; an alias input's explicit `ref`/`rev`
override the mapping's fields (while absent overrides keep the mapping's
own); an alias matched by no registry is a resolution error; a non-alias
reference matched by no registry is returned unchanged. -/
theorem lookupFlake_precedence_overrides
    (r1 r2 : FlakeRegistry) (a m1 m2 : FlakeRef) (n : String) (fuel : Nat)
    (ha : a.data = .isAlias n)
    (h1 : regFind r1 a = some m1)
    (h2 : regFind r2 a = some m2)
    (hnf : findInRegistries [r1, r2] (applyOverrides a m1) = none)
    (hdir : (applyOverrides a m1).isDirect = true)
    (hfuel : 2 ≤ fuel) :
    lookupFlake fuel [r1, r2] a [] = .ok (applyOverrides a m1) ∧
    (a.ref.isSome = true → (applyOverrides a m1).ref = a.ref) ∧
    (a.rev.isSome = true → (applyOverrides a m1).rev = a.rev) ∧
    (a.ref = none → (applyOverrides a m1).ref = m1.ref) ∧
    (a.rev = none → (applyOverrides a m1).rev = m1.rev) ∧
    (∀ r : FlakeRef, findInRegistries [r1, r2] r = none → r.isDirect = false →
      lookupFlake fuel [r1, r2] r [] = .error (.indirectURI r.to_string)) ∧
    (∀ r : FlakeRef, findInRegistries [r1, r2] r = none → r.isDirect = true →
      lookupFlake fuel [r1, r2] r [] = .ok r) := by
  obtain ⟨k, rfl⟩ : ∃ k, fuel = k + 2 := ⟨fuel - 2, by omega⟩
  have hfind : findInRegistries [r1, r2] a = some m1 := by
    simp [findInRegistries, h1]
  refine ⟨?_, ?_, ?_, ?_, ?_, ?_, ?_⟩
  · show lookupFlake (k + 1 + 1) [r1, r2] a [] = .ok (applyOverrides a m1)
    simp only [lookupFlake, hfind, cycleCheck, List.nil_append]
    simp [lookupFlake, hnf, hdir]
  · intro h
    obtain ⟨x, hx⟩ := Option.isSome_iff_exists.mp h
    simp [applyOverrides, ha, hx]
  · intro h
    obtain ⟨x, hx⟩ := Option.isSome_iff_exists.mp h
    simp [applyOverrides, ha, hx]
  · intro h
    simp [applyOverrides, ha, h]
  · intro h
    simp [applyOverrides, ha, h]
  · intro r hr hdirr
    show lookupFlake (k + 1 + 1) [r1, r2] r [] = .error (.indirectURI r.to_string)
    simp [lookupFlake, hr, hdirr]
  · intro r hr hdirr
    show lookupFlake (k + 1 + 1) [r1, r2] r [] = .ok r
    simp [lookupFlake, hr, hdirr]

/-- C7 (witness): two concrete registries both carrying the alias; the
first one's mapping wins and the alias's `ref` override lands on it. -/
theorem lookupFlake_precedence_overrides_witness :
    lookupFlake 2
      [⟨[(⟨.isAlias "A", some "br", none⟩, ⟨.isGitHub "o1" "p1", some "x", none⟩)]⟩,
       ⟨[(⟨.isAlias "A", some "br", none⟩, ⟨.isGitHub "o2" "p2", none, none⟩)]⟩]
      ⟨.isAlias "A", some "br", none⟩ [] =
      .ok ⟨.isGitHub "o1" "p1", some "br", none⟩ := by
  have h := lookupFlake_precedence_overrides
    ⟨[(⟨.isAlias "A", some "br", none⟩, ⟨.isGitHub "o1" "p1", some "x", none⟩)]⟩
    ⟨[(⟨.isAlias "A", some "br", none⟩, ⟨.isGitHub "o2" "p2", none, none⟩)]⟩
    ⟨.isAlias "A", some "br", none⟩
    ⟨.isGitHub "o1" "p1", some "x", none⟩
    ⟨.isGitHub "o2" "p2", none, none⟩
    "A" 2 (by decide) (by decide) (by decide) (by decide) (by decide) (by decide)
  exact h.1

/-- C8: in the hosted-repo fetch, a downloader response with no ETag, or
with an ETag that is not exactly 42 characters delimited by quote
characters, is rejected with the corresponding fatal error; a well-formed
ETag has its quotes stripped and the inner 40 characters become the
pinned revision of the fetched source. -/
theorem fetchFlake_etag_validation
    (st : EvalState) (owner repo rv p : String) (etagOpt : Option String) (fuel : Nat)
    (hpure : st.pureEval = true)
    (hfuel : 1 ≤ fuel)
    (hdl : st.downloadCached
        (githubTarballUrl owner repo ⟨.isGitHub owner repo, none, some rv⟩) =
      ⟨p, etagOpt⟩) :
    (etagOpt = none →
      fetchFlake st fuel ⟨.isGitHub owner repo, none, some rv⟩ false =
        .error (.noETag (githubTarballUrl owner repo
          ⟨.isGitHub owner repo, none, some rv⟩))) ∧
    (∀ e, etagOpt = some e →
      (e.data.length ≠ 42 ∨ e.data.get? 0 ≠ some '"' ∨ e.data.get? 41 ≠ some '"') →
      fetchFlake st fuel ⟨.isGitHub owner repo, none, some rv⟩ false =
        .error (.badETag e (githubTarballUrl owner repo
          ⟨.isGitHub owner repo, none, some rv⟩))) ∧
    (∀ e, etagOpt = some e →
      e.data.length = 42 → e.data.get? 0 = some '"' → e.data.get? 41 = some '"' →
      fetchFlake st fuel ⟨.isGitHub owner repo, none, some rv⟩ false =
        .ok ⟨p, some (String.mk ((e.data.drop 1).take 40)), none⟩) := by
  obtain ⟨k, rfl⟩ : ∃ k, fuel = k + 1 := ⟨fuel - 1, by omega⟩
  obtain ⟨pe, urf, lrf, dl, eg, pex, isp, ev, rlf⟩ := st
  simp only at hpure hdl
  subst hpure
  have hstep : fetchFlake ⟨true, urf, lrf, dl, eg, pex, isp, ev, rlf⟩ (k + 1)
      (⟨.isGitHub owner repo, none, some rv⟩ : FlakeRef) false =
      (match (dl (githubTarballUrl owner repo
          ⟨.isGitHub owner repo, none, some rv⟩)).etag with
       | none => .error (.noETag (githubTarballUrl owner repo
           ⟨.isGitHub owner repo, none, some rv⟩))
       | some etag =>
         if etag.data.length ≠ 42 || etag.data.get? 0 ≠ some '"' ||
             etag.data.get? 41 ≠ some '"' then
           .error (.badETag etag (githubTarballUrl owner repo
             ⟨.isGitHub owner repo, none, some rv⟩))
         else
           .ok ⟨(dl (githubTarballUrl owner repo
               ⟨.isGitHub owner repo, none, some rv⟩)).path,
             some (String.mk ((etag.data.drop 1).take 40)), none⟩) := rfl
  rw [hdl] at hstep
  refine ⟨?_, ?_, ?_⟩
  · intro he
    subst he
    exact hstep
  · intro e he hbad
    subst he
    rw [hstep]
    have hc : (decide (e.data.length ≠ 42) || decide (e.data.get? 0 ≠ some '"') ||
        decide (e.data.get? 41 ≠ some '"')) = true := by
      rcases hbad with h | h | h
      · rw [decide_eq_true h]
        simp
      · rw [decide_eq_true h]
        simp
      · rw [decide_eq_true h]
        simp
    simp only [hc, if_true]
  · intro e he h42 h0 h41
    subst he
    rw [hstep]
    have hc : (decide (e.data.length ≠ 42) || decide (e.data.get? 0 ≠ some '"') ||
        decide (e.data.get? 41 ≠ some '"')) = false := by
      rw [decide_eq_false (fun hne => hne h42), decide_eq_false (fun hne => hne h0),
        decide_eq_false (fun hne => hne h41)]
      rfl
    simp [hc]
    refine ⟨⟨h42, ?_⟩, ?_⟩
    · rw [← List.get?_eq_getElem?]
      exact h0
    · rw [← List.get?_eq_getElem?]
      exact h41

/-- C8 (witness): a concrete world exercised at a missing ETag, a
malformed ETag, and a well-formed one. -/
theorem fetchFlake_etag_validation_witness :
    fetchFlake
      { pureEval := true, userRegistryFile := none, localRegistryFile := none,
        downloadCached := fun _ => ⟨"/nix/store/E", some ("\"" ++ hex40b ++ "\"")⟩,
        exportGit := dummyGit, pathExists := fun _ => false,
        isStorePath := fun _ => false, evalFlakeNix := fun _ => none,
        readLockFileAt := fun _ => none } 1
      ⟨.isGitHub "own" "rep", none, some hex40a⟩ false =
      .ok ⟨"/nix/store/E", some hex40b, none⟩ ∧
    fetchFlake
      { pureEval := true, userRegistryFile := none, localRegistryFile := none,
        downloadCached := fun _ => ⟨"/nix/store/E", some "notaquotedrev"⟩,
        exportGit := dummyGit, pathExists := fun _ => false,
        isStorePath := fun _ => false, evalFlakeNix := fun _ => none,
        readLockFileAt := fun _ => none } 1
      ⟨.isGitHub "own" "rep", none, some hex40a⟩ false =
      .error (.badETag "notaquotedrev"
        (githubTarballUrl "own" "rep" ⟨.isGitHub "own" "rep", none, some hex40a⟩)) ∧
    fetchFlake
      { pureEval := true, userRegistryFile := none, localRegistryFile := none,
        downloadCached := fun _ => ⟨"/nix/store/E", none⟩,
        exportGit := dummyGit, pathExists := fun _ => false,
        isStorePath := fun _ => false, evalFlakeNix := fun _ => none,
        readLockFileAt := fun _ => none } 1
      ⟨.isGitHub "own" "rep", none, some hex40a⟩ false =
      .error (.noETag
        (githubTarballUrl "own" "rep" ⟨.isGitHub "own" "rep", none, some hex40a⟩)) := by
  refine ⟨?_, ?_, ?_⟩
  · have h := fetchFlake_etag_validation
      { pureEval := true, userRegistryFile := none, localRegistryFile := none,
        downloadCached := fun _ => ⟨"/nix/store/E", some ("\"" ++ hex40b ++ "\"")⟩,
        exportGit := dummyGit, pathExists := fun _ => false,
        isStorePath := fun _ => false, evalFlakeNix := fun _ => none,
        readLockFileAt := fun _ => none }
      "own" "rep" hex40a "/nix/store/E" (some ("\"" ++ hex40b ++ "\"")) 1
      rfl (by decide) rfl
    have h3 := h.2.2 ("\"" ++ hex40b ++ "\"") rfl (by decide) (by decide) (by decide)
    rw [h3]
    decide
  · have h := fetchFlake_etag_validation
      { pureEval := true, userRegistryFile := none, localRegistryFile := none,
        downloadCached := fun _ => ⟨"/nix/store/E", some "notaquotedrev"⟩,
        exportGit := dummyGit, pathExists := fun _ => false,
        isStorePath := fun _ => false, evalFlakeNix := fun _ => none,
        readLockFileAt := fun _ => none }
      "own" "rep" hex40a "/nix/store/E" (some "notaquotedrev") 1
      rfl (by decide) rfl
    exact h.2.1 "notaquotedrev" rfl (by decide)
  · have h := fetchFlake_etag_validation
      { pureEval := true, userRegistryFile := none, localRegistryFile := none,
        downloadCached := fun _ => ⟨"/nix/store/E", none⟩,
        exportGit := dummyGit, pathExists := fun _ => false,
        isStorePath := fun _ => false, evalFlakeNix := fun _ => none,
        readLockFileAt := fun _ => none }
      "own" "rep" hex40a "/nix/store/E" none 1 rfl (by decide) rfl
    exact h.1 rfl

/-- C9: a missing lock-file or registry file yields the empty lock file or
registry without error, while an existing document whose `version` is
missing or is anything other than the integer 1 fails to parse regardless
of the rest of its content (when the field is an integer `n ≠ 1`, with the
unsupported-version error naming `n`). -/
theorem read_missing_and_version_gate :
    readLockFile 1 none = .ok ⟨.nil, []⟩ ∧
    readRegistry none = .ok ⟨[]⟩ ∧
    (∀ (j : Json) (fuel : Nat), jsonGet j "version" ≠ .num 1 →
      (∃ e, readLockFile fuel (some j) = .error e) ∧
      (∃ e, readRegistry (some j) = .error e)) ∧
    (∀ (o : JsonObj) (n : Int) (fuel : Nat),
      o.find "version" = some (.num n) → n ≠ 1 →
      readLockFile fuel (some (.obj o)) = .error (.unsupportedVersion n) ∧
      readRegistry (some (.obj o)) = .error (.unsupportedVersion n)) := by
  have hgate : ∀ (o : JsonObj) (n : Int) (fuel : Nat),
      o.find "version" = some (.num n) → n ≠ 1 →
      readLockFile fuel (some (.obj o)) = .error (.unsupportedVersion n) ∧
      readRegistry (some (.obj o)) = .error (.unsupportedVersion n) := by
    intro o n fuel hfind hn
    constructor
    · simp [readLockFile, readLockFileDoc, jsonValueInt, hfind, Bind.bind,
        Except.bind, hn]
    · simp [readRegistry, jsonValueInt, hfind, Bind.bind, Except.bind, hn]
  refine ⟨rfl, rfl, ?_, hgate⟩
  intro j fuel hv
  cases j with
  | null => exact ⟨⟨.jsonTypeErr, rfl⟩, ⟨.jsonTypeErr, rfl⟩⟩
  | str s => exact ⟨⟨.jsonTypeErr, rfl⟩, ⟨.jsonTypeErr, rfl⟩⟩
  | num m => exact ⟨⟨.jsonTypeErr, rfl⟩, ⟨.jsonTypeErr, rfl⟩⟩
  | obj o =>
    cases hfind : o.find "version" with
    | none =>
      constructor
      · exact ⟨.unsupportedVersion 0, by
          simp [readLockFile, readLockFileDoc, jsonValueInt, hfind, Bind.bind,
            Except.bind]⟩
      · exact ⟨.unsupportedVersion 0, by
          simp [readRegistry, jsonValueInt, hfind, Bind.bind, Except.bind]⟩
    | some v =>
      cases v with
      | num m =>
        have hm : m ≠ 1 := by
          intro hm1
          subst hm1
          exact hv (by simp [jsonGet, hfind])
        have := hgate o m fuel hfind hm
        exact ⟨⟨_, this.1⟩, ⟨_, this.2⟩⟩
      | null =>
        constructor
        · exact ⟨.jsonTypeErr, by
            simp [readLockFile, readLockFileDoc, jsonValueInt, hfind, Bind.bind,
              Except.bind]⟩
        · exact ⟨.jsonTypeErr, by
            simp [readRegistry, jsonValueInt, hfind, Bind.bind, Except.bind]⟩
      | str s =>
        constructor
        · exact ⟨.jsonTypeErr, by
            simp [readLockFile, readLockFileDoc, jsonValueInt, hfind, Bind.bind,
              Except.bind]⟩
        · exact ⟨.jsonTypeErr, by
            simp [readRegistry, jsonValueInt, hfind, Bind.bind, Except.bind]⟩
      | obj o2 =>
        constructor
        · exact ⟨.jsonTypeErr, by
            simp [readLockFile, readLockFileDoc, jsonValueInt, hfind, Bind.bind,
              Except.bind]⟩
        · exact ⟨.jsonTypeErr, by
            simp [readRegistry, jsonValueInt, hfind, Bind.bind, Except.bind]⟩

/-- C9 (witness): a lock file and registry with `"version": 2` fail with
the unsupported-version error. -/
theorem read_missing_and_version_gate_witness :
    readLockFile 1 (some (.obj (.cons "version" (.num 2) .nil))) =
      .error (.unsupportedVersion 2) ∧
    readRegistry (some (.obj (.cons "version" (.num 2) .nil))) =
      .error (.unsupportedVersion 2) := by
  exact read_missing_and_version_gate.2.2.2 (.cons "version" (.num 2) .nil) 2 1
    (by decide) (by decide)

/-- C10: converting a Dependencies node to a lock-file entry keys flake
children by flake id and non-flake children by alias with
`insert_or_assign` semantics: a key's surviving value is the one from the
LAST child (in declaration order) carrying that id or alias, earlier
same-key children being dropped, and the resulting maps have no duplicate
keys. -/
theorem dependenciesToFlakeEntry_last_write_wins
    (flake : Flake) (fd : DepsList) (nfd : List NonFlake) (k : String) :
    (dependenciesToFlakeEntry (.mk flake fd nfd)).flakeEntries.lookup k =
      (lastFlakeDepWith fd k).map dependenciesToFlakeEntry ∧
    listLookup (dependenciesToFlakeEntry (.mk flake fd nfd)).nonFlakeEntries k =
      (lastNonFlakeWith nfd k).map NonFlake.ref ∧
    mapKeysND (dependenciesToFlakeEntry (.mk flake fd nfd)).flakeEntries = true ∧
    keysNodup (dependenciesToFlakeEntry (.mk flake fd nfd)).nonFlakeEntries = true := by
  refine ⟨?_, ?_, ?_, ?_⟩
  · show (depsListToEntries fd .nil).lookup k = _
    rw [depsListToEntries_lookup]
    cases lastFlakeDepWith fd k <;> simp [FlakeEntryMap.lookup]
  · show listLookup (nonFlakeFold nfd []) k = _
    rw [nonFlakeFold_lookup]
    cases lastNonFlakeWith nfd k <;> simp [listLookup]
  · exact depsListToEntries_keysND fd .nil rfl
  · exact nonFlakeFold_keysND nfd [] rfl



/-- C5: for every Dependencies tree whose references are all immutable
(and canonically printable, the reference text codec being out of the
source tree), writing the lock file derived from the tree and reading the
written document back yields exactly the derived lock file. -/
theorem lockFile_write_read_roundtrip (deps : Dependencies) (fuel : Nat)
    (hd : entryMapDepth (toLockFile deps).flakeEntries ≤ fuel)
    (hrt : (treeRefs deps).all parseRT = true)
    (himm : (treeRefs deps).all FlakeRef.isImmutable = true) :
    readLockFileDoc fuel (writeLockFile (toLockFile deps)) = .ok (toLockFile deps) := by
  have hnd := toLockFile_ND deps
  have hrtL := toLockFile_refs_all deps parseRT hrt
  have himmL := toLockFile_refs_all deps FlakeRef.isImmutable himm
  have h := readLockFileDoc_written (toLockFile deps) fuel hd hnd hrtL
  rw [find?_not_of_all _ _ himmL] at h
  exact h

/-- C5 (witness): a pinned two-flake tree with one non-flake dependency
round-trips through the codec. -/
theorem lockFile_write_read_roundtrip_witness :
    readLockFileDoc 3 (writeLockFile (toLockFile rtDeps)) = .ok (toLockFile rtDeps) :=
  lockFile_write_read_roundtrip rtDeps 3 (by decide) (by decide) (by decide)

/-- C6: reading a lock-file document fails with the purity-violation error
(naming the first mutable reference in reading order) whenever any stored
reference — a top-level non-flake entry, a nested flake entry's own
reference, or an entry at any depth — is mutable, and a successful read
implies every stored reference was immutable. -/
theorem lockFile_read_purity_enforced (lf : LockFile) (fuel : Nat)
    (hd : entryMapDepth lf.flakeEntries ≤ fuel)
    (hnd : lockFileND lf = true)
    (hrt : (lockFileRefs lf).all parseRT = true) :
    (∀ r, (lockFileRefs lf).find? (fun x => !x.isImmutable) = some r →
      readLockFileDoc fuel (writeLockFile lf) = .error (.fetchMutable r.to_string)) ∧
    (∀ lf', readLockFileDoc fuel (writeLockFile lf) = .ok lf' →
      ∀ r, r ∈ lockFileRefs lf → r.isImmutable = true) := by
  have h := readLockFileDoc_written lf fuel hd hnd hrt
  constructor
  · intro r hr
    rw [hr] at h
    exact h
  · intro lf' hok r hmem
    by_cases hmut : r.isImmutable = true
    · exact hmut
    · exfalso
      have hfalse : r.isImmutable = false := by simpa using hmut
      obtain ⟨y, hy⟩ := find?_some_of_mem (lockFileRefs lf) (fun x => !x.isImmutable) r
        hmem (by simp [hfalse])
      rw [hy] at h
      rw [hok] at h
      simp at h

/-- C6 (witness): a lock file whose only mutable reference sits at nesting
depth two is rejected with the purity-violation error naming it. -/
theorem lockFile_read_purity_enforced_witness :
    readLockFileDoc 3 (writeLockFile c6LF) =
      .error (.fetchMutable "github:m/n/master") := by
  have h := (lockFile_read_purity_enforced c6LF 3 (by decide) (by decide) (by decide)).1
  exact h c6MutRef (by decide)

end Nix
